import Mathlib

/-!
Verification development for the haulvisor repository.

Shallow embedding of the two core subsystems named by the specification:
  * `haulvisor/scheduler/job_queue.py` — priority queue, worker loop with
    retries and exponential backoff, result delivery (`wait`).
  * `haulvisor/compiler/optimizer.py` — the five optimizer passes over the
    gate-list IR.

Python floats are modelled as real numbers, Python dicts with string keys as
association lists (or as functions for the result store), and the worker's
infinite loop as a terminating recursion on the remaining retry budget.
-/

set_option linter.unusedVariables false

namespace Haulvisor

/-! ### Scheduler: job records and the worker loop (job_queue.py) -/

/-- Embeds `_PQItem` (job_queue.py lines 34-45).  `D` stands for the device
class object; `enqueue_time` is modelled as a natural-number sequence `seq`
(`time.time()` produces increasing stamps).  Comparison uses only
`priority` then `seq`: the remaining fields are declared `compare=False`. -/
structure PQItem (D : Type) where
  priority : Int
  seq : Nat
  jobId : String
  deviceCls : D
  circ : String
  maxRetries : Nat
  attempt : Nat

/-- The dataclass `order=True` comparison on `_PQItem`: lexicographic on
(priority, enqueue_time), the `compare=False` fields are ignored. -/
def itemLT {D : Type} (a b : PQItem D) : Bool :=
  a.priority < b.priority || (a.priority == b.priority && a.seq < b.seq)

/-- The non-strict lexicographic order on queue keys, as a proposition. -/
def itemLE {D : Type} (a b : PQItem D) : Prop :=
  a.priority < b.priority ∨ (a.priority = b.priority ∧ a.seq ≤ b.seq)

/-- `PriorityQueue.get` returns a smallest item under `_PQItem.__lt__`.
`popMin` selects the (leftmost) minimal element of the pending list and
returns it with the remaining items. -/
def popMin {D : Type} : List (PQItem D) → Option (PQItem D × List (PQItem D))
  | [] => none
  | x :: xs =>
    match popMin xs with
    | none => some (x, [])
    | some (m, rest) =>
      if itemLT m x then some (m, x :: rest) else some (x, xs)

theorem popMin_none {D : Type} (q : List (PQItem D)) :
    popMin q = none ↔ q = [] := by
  cases q with
  | nil => simp [popMin]
  | cons x xs =>
    simp only [popMin]
    cases h : popMin xs with
    | none => simp
    | some p => cases p with
      | mk m rest => by_cases hlt : itemLT m x <;> simp [hlt]

theorem popMin_length {D : Type} (q : List (PQItem D)) (m : PQItem D)
    (rest : List (PQItem D)) (h : popMin q = some (m, rest)) :
    rest.length < q.length := by
  induction q generalizing m rest with
  | nil => simp [popMin] at h
  | cons x xs ih =>
    simp only [popMin] at h
    cases hx : popMin xs with
    | none =>
      rw [hx] at h
      cases h
      simp
    | some p =>
      cases p with
      | mk m' rest' =>
        rw [hx] at h
        by_cases hlt : itemLT m' x
        · simp [hlt] at h
          obtain ⟨hm, hr⟩ := h
          subst hm; subst hr
          have := ih m' rest' hx
          simp [Nat.succ_lt_succ this]
        · simp [hlt] at h
          obtain ⟨hm, hr⟩ := h
          subst hm; subst hr
          simp

/-- Draining the queue one `get` at a time, with a step budget: each
successful `popMin` removes one item, so a budget of `q.length` drains the
whole queue. -/
def drainAux {D : Type} : Nat → List (PQItem D) → List (PQItem D)
  | 0, _ => []
  | fuel + 1, q =>
    match popMin q with
    | none => []
    | some (m, rest) => m :: drainAux fuel rest

/-- The order in which a single worker executes the pending records. -/
def drain {D : Type} (q : List (PQItem D)) : List (PQItem D) :=
  drainAux q.length q

theorem itemLE_of_not_lt {D : Type} (a b : PQItem D) (h : ¬ itemLT b a) :
    itemLE a b := by
  unfold itemLT at h
  unfold itemLE
  simp only [Bool.or_eq_true, Bool.and_eq_true, decide_eq_true_eq, beq_iff_eq,
    not_or, not_and] at h
  obtain ⟨h1, h2⟩ := h
  rcases lt_trichotomy a.priority b.priority with hp | hp | hp
  · exact Or.inl hp
  · right
    refine ⟨hp, ?_⟩
    have := h2 hp.symm
    omega
  · exact absurd hp h1

theorem itemLE_of_lt {D : Type} (a b : PQItem D) (h : itemLT a b) :
    itemLE a b := by
  unfold itemLT at h
  unfold itemLE
  simp only [Bool.or_eq_true, Bool.and_eq_true, decide_eq_true_eq,
    beq_iff_eq] at h
  rcases h with h | ⟨h1, h2⟩
  · exact Or.inl h
  · exact Or.inr ⟨h1, Nat.le_of_lt h2⟩

theorem itemLE_trans {D : Type} (a b c : PQItem D) (h1 : itemLE a b)
    (h2 : itemLE b c) : itemLE a c := by
  unfold itemLE at *
  rcases h1 with h1 | ⟨h1, h1'⟩ <;> rcases h2 with h2 | ⟨h2, h2'⟩
  · exact Or.inl (lt_trans h1 h2)
  · exact Or.inl (h2 ▸ h1)
  · exact Or.inl (h1 ▸ h2)
  · exact Or.inr ⟨h1.trans h2, h1'.trans h2'⟩

/-- The item handed out by `popMin` is minimal in the lexicographic
(priority, enqueue sequence) order among all pending items. -/
theorem popMin_min {D : Type} (q : List (PQItem D)) (m : PQItem D)
    (rest : List (PQItem D)) (h : popMin q = some (m, rest)) :
    ∀ y ∈ q, itemLE m y := by
  induction q generalizing m rest with
  | nil => simp [popMin] at h
  | cons x xs ih =>
    simp only [popMin] at h
    cases hx : popMin xs with
    | none =>
      rw [hx] at h
      cases h
      intro y hy
      rw [(popMin_none xs).mp hx] at hy
      simp at hy
      subst hy
      exact Or.inr ⟨rfl, le_refl _⟩
    | some p =>
      cases p with
      | mk m' rest' =>
        rw [hx] at h
        by_cases hlt : itemLT m' x
        · simp [hlt] at h
          obtain ⟨hm, hr⟩ := h
          subst hm
          intro y hy
          rcases List.mem_cons.mp hy with hy | hy
          · subst hy; exact itemLE_of_lt _ _ hlt
          · exact ih m' rest' hx y hy
        · simp [hlt] at h
          obtain ⟨hm, hr⟩ := h
          subst hm
          intro y hy
          rcases List.mem_cons.mp hy with hy | hy
          · subst hy; exact Or.inr ⟨rfl, le_refl _⟩
          · exact itemLE_trans _ _ _ (itemLE_of_not_lt _ _ hlt)
              (ih m' rest' hx y hy)

theorem popMin_perm {D : Type} (q : List (PQItem D)) (m : PQItem D)
    (rest : List (PQItem D)) (h : popMin q = some (m, rest)) :
    q.Perm (m :: rest) := by
  induction q generalizing m rest with
  | nil => simp [popMin] at h
  | cons x xs ih =>
    simp only [popMin] at h
    cases hx : popMin xs with
    | none =>
      rw [hx] at h
      cases h
      rw [(popMin_none xs).mp hx]
    | some p =>
      cases p with
      | mk m' rest' =>
        rw [hx] at h
        by_cases hlt : itemLT m' x
        · simp [hlt] at h
          obtain ⟨hm, hr⟩ := h
          subst hm; subst hr
          exact ((ih m' rest' hx).cons x).trans (List.Perm.swap m' x rest')
        · simp [hlt] at h
          obtain ⟨hm, hr⟩ := h
          subst hm; subst hr
          exact List.Perm.refl _

theorem drainAux_perm {D : Type} (fuel : Nat) :
    ∀ q : List (PQItem D), q.length ≤ fuel → (drainAux fuel q).Perm q := by
  induction fuel with
  | zero =>
    intro q hq
    rw [List.length_eq_zero.mp (Nat.le_zero.mp hq)]
    simp [drainAux]
  | succ n ih =>
    intro q hq
    simp only [drainAux]
    cases h : popMin q with
    | none =>
      rw [(popMin_none q).mp h]
    | some p =>
      cases p with
      | mk m rest =>
        have hlen : rest.length ≤ n := by
          have := popMin_length q m rest h
          omega
        exact ((ih rest hlen).cons m).trans (popMin_perm q m rest h).symm

theorem drain_perm {D : Type} (q : List (PQItem D)) : (drain q).Perm q :=
  drainAux_perm q.length q (le_refl _)

/-- `str.lower()`, mapping each character to lower case. -/
def pyLower (s : String) : String := ⟨s.data.map Char.toLower⟩

/-- `_PRIO_MAP` (job_queue.py line 55). -/
def PRIO_MAP : String → Option Int := fun s =>
  if s = "high" then some 0
  else if s = "normal" then some 1
  else if s = "low" then some 2
  else none

/-- The priority normalisation in `enqueue` (job_queue.py lines 179-196) for
string priorities: `_PRIO_MAP.get(priority.lower(), priority)`, then an
`int(...)` conversion attempt, defaulting to normal (1) on failure. -/
def prioVal (p : String) : Int :=
  match PRIO_MAP (pyLower p) with
  | some n => n
  | none =>
    match p.toInt? with
    | some n => n
    | none => 1

/-! ### Worker loop: retries with exponential backoff (`_worker`) -/

/-- Terminal outcome of a job: the entry stored into `_results` — the run
result on success (line 115), the final exception on exhausted retries
(line 146). -/
inductive Outcome (E V : Type) where
  | completed : V → Outcome E V
  | failed : E → Outcome E V
deriving DecidableEq

/-- The worker's processing of one job record to its terminal outcome
(job_queue.py lines 91-149).  `body a` is the result of the `try`-block's
device calls on the attempt whose entry counter is `a` (the attempt counter
starts at 0 and is incremented on each failure, so attempt `a` is the
`(a+1)`-th execution).  Returns the terminal outcome together with the list
of backoff delays slept (in order): on an error, the counter is incremented
and, if still `≤ maxRetries`, the worker sleeps `2 ^ (attempt - 1)` time
units and re-inserts the record; otherwise the job is terminally failed
with the raised error. -/
def runJob {E V : Type} (body : Nat → Except E V) (maxRetries : Nat)
    (attempt : Nat) : Outcome E V × List Nat :=
  match body attempt with
  | .ok v => (.completed v, [])
  | .error e =>
    if h : attempt + 1 ≤ maxRetries then
      let r := runJob body maxRetries (attempt + 1)
      (r.1, 2 ^ (attempt + 1 - 1) :: r.2)
    else (.failed e, [])
termination_by maxRetries + 1 - attempt
decreasing_by omega

/-- The `try`-block of `_worker` (lines 91-99): instantiate the device,
`compile`, `run`, then `monitor`; the first raised error aborts the block
and is handled by the `except` clause.  The job's run result is only stored
when all three calls return. -/
def attemptBody {E C V : Type} (compile : Nat → Except E C)
    (run : Nat → C → Except E V) (monitor : Nat → V → Except E Unit) :
    Nat → Except E V := fun n =>
  match compile n with
  | .error e => .error e
  | .ok c =>
    match run n c with
    | .error e => .error e
    | .ok v =>
      match monitor n v with
      | .error e => .error e
      | .ok _ => .ok v

/-- The scenario device of the spec: `run` raises on its first two calls and
succeeds on the third; `compile` and `monitor` never raise. -/
def flakyBody : Nat → Except String Nat :=
  attemptBody (fun _ => .ok ())
    (fun n _ => if n = 0 then .error "boom1" else if n = 1 then .error "boom2" else .ok 42)
    (fun _ _ => .ok ())

/-- C1: for every job whose execution raises, the worker increments the
attempt counter and, if the incremented counter is still `≤ max_retries`,
re-inserts the record after a backoff of `2^(attempt-1)` time units; if it
exceeds `max_retries` the job is terminally failed with the last error; if
execution returns, the job is terminally completed with the returned value.
A device failing its first two run calls and succeeding on the third
reports success with `max_retries = 3`, and reports the second failure as
terminal with `max_retries = 1`. -/
theorem worker_retry_semantics :
    (∀ (E V : Type) (body : Nat → Except E V) (maxR a : Nat) (v : V),
        body a = .ok v → runJob body maxR a = (.completed v, [])) ∧
    (∀ (E V : Type) (body : Nat → Except E V) (maxR a : Nat) (e : E),
        body a = .error e → a + 1 ≤ maxR →
        runJob body maxR a =
          ((runJob body maxR (a + 1)).1,
            2 ^ (a + 1 - 1) :: (runJob body maxR (a + 1)).2)) ∧
    (∀ (E V : Type) (body : Nat → Except E V) (maxR a : Nat) (e : E),
        body a = .error e → maxR < a + 1 →
        runJob body maxR a = (.failed e, [])) ∧
    runJob flakyBody 3 0 = (.completed 42, [1, 2]) ∧
    runJob flakyBody 1 0 = (.failed "boom2", [1]) := by
  refine ⟨?_, ?_, ?_, ?_, ?_⟩
  · intro E V body maxR a v h
    rw [runJob, h]
  · intro E V body maxR a e h hle
    rw [runJob, h]
    simp [hle]
  · intro E V body maxR a e h hgt
    rw [runJob, h]
    simp [Nat.not_le.mpr hgt, hgt]
  · rw [runJob]; simp [flakyBody, attemptBody]
    rw [runJob]; simp [flakyBody, attemptBody]
    rw [runJob]; simp [flakyBody, attemptBody]
  · rw [runJob]; simp [flakyBody, attemptBody]
    rw [runJob]; simp [flakyBody, attemptBody]

theorem worker_retry_semantics_witness :
    runJob (fun _ => (Except.ok 7 : Except String Nat)) 3 0 =
      (.completed 7, []) ∧
    runJob (fun _ => (Except.error "e" : Except String Nat)) 2 0 =
      ((runJob (fun _ => (Except.error "e" : Except String Nat)) 2 1).1,
        2 ^ (0 + 1 - 1) ::
          (runJob (fun _ => (Except.error "e" : Except String Nat)) 2 1).2) ∧
    runJob (fun _ => (Except.error "e" : Except String Nat)) 0 0 =
      (.failed "e", []) :=
  ⟨worker_retry_semantics.1 String Nat _ 3 0 7 rfl,
   worker_retry_semantics.2.1 String Nat _ 2 0 "e" rfl (by decide),
   worker_retry_semantics.2.2.1 String Nat _ 0 0 "e" rfl (by decide)⟩

/-- A device body whose compile and run steps succeed on every attempt but
whose monitor step always raises. -/
def monitorFailBody : Nat → Except String Nat :=
  attemptBody (fun _ => .ok ()) (fun _ _ => .ok 42)
    (fun _ _ => .error "monitor-boom")

/-- C9 counterexample: with compile and run succeeding and monitor raising,
and `max_retries = 0`, the job terminates as failed with the monitor error
— not as completed with the run result 42, as the claim states. -/
theorem monitor_error_counterexample :
    runJob monitorFailBody 0 0 = (.failed "monitor-boom", []) ∧
    (Outcome.failed "monitor-boom" : Outcome String Nat) ≠
      Outcome.completed 42 := by
  constructor
  · rw [runJob]; simp [monitorFailBody, attemptBody]
  · simp

/-- C9 (amended): an error raised by the device's monitor step is treated
exactly like a compile or run error — it aborts the attempt, so the job is
retried while budget remains and is otherwise terminally failed with the
monitor error; the job does not complete on that attempt. -/
theorem monitor_error_fails_attempt :
    ∀ (E C V : Type) (compile : Nat → Except E C)
      (run : Nat → C → Except E V) (monitor : Nat → V → Except E Unit)
      (n : Nat) (c : C) (v : V) (e : E),
      compile n = .ok c → run n c = .ok v → monitor n v = .error e →
      attemptBody compile run monitor n = .error e ∧
      (∀ maxR, maxR < n + 1 →
        runJob (attemptBody compile run monitor) maxR n = (.failed e, [])) ∧
      (∀ maxR, n + 1 ≤ maxR →
        runJob (attemptBody compile run monitor) maxR n =
          ((runJob (attemptBody compile run monitor) maxR (n + 1)).1,
            2 ^ (n + 1 - 1) ::
              (runJob (attemptBody compile run monitor) maxR (n + 1)).2)) := by
  intro E C V compile run monitor n c v e hc hr hm
  have hbody : attemptBody compile run monitor n = .error e := by
    simp [attemptBody, hc, hr, hm]
  refine ⟨hbody, ?_, ?_⟩
  · intro maxR hlt
    rw [runJob, hbody]
    simp [Nat.not_le.mpr hlt]
  · intro maxR hle
    rw [runJob, hbody]
    simp [hle]

theorem monitor_error_fails_attempt_witness :
    attemptBody (fun _ => (Except.ok () : Except String Unit))
        (fun _ _ => (Except.ok 5 : Except String Nat))
        (fun _ _ => Except.error "m") 0 = .error "m" ∧
    runJob
        (attemptBody (fun _ => (Except.ok () : Except String Unit))
          (fun _ _ => (Except.ok 5 : Except String Nat))
          (fun _ _ => Except.error "m")) 0 0 = (.failed "m", []) :=
  have h := monitor_error_fails_attempt String Unit Nat _ _ _ 0 () 5 "m"
    rfl rfl rfl
  ⟨h.1, h.2.1 0 (by decide)⟩

/-! ### Result delivery: `wait` (job_queue.py lines 213-229) -/

/-- The contents of the `_results` dict at one instant, as a map from job
ids to stored outcomes. -/
def Store (V : Type) : Type := String → Option V

/-- `dict.pop`: retrieve the stored value and remove the key
(job_queue.py line 229). -/
def dictPop {V : Type} (res : Store V) (jobId : String) :
    Option (V × Store V) :=
  match res jobId with
  | some v => some (v, fun j => if j = jobId then none else res j)
  | none => none

/-- The polling loop of `wait` (lines 224-229): `states t` is the contents
of `_results` at the `t`-th poll; the loop sleeps while `jobId` is absent
and pops as soon as it is present.  `fuel` bounds the number of polls we
observe (the real loop polls indefinitely). -/
def waitFrom {V : Type} (states : Nat → Store V) (jobId : String) :
    Nat → Nat → Option (V × Store V)
  | _, 0 => none
  | t, fuel + 1 =>
    match states t jobId with
    | some _ => dictPop (states t) jobId
    | none => waitFrom states jobId (t + 1) fuel

/-- `wait(job_id)`: poll from the first instant. -/
def waitResult {V : Type} (states : Nat → Store V) (jobId : String)
    (fuel : Nat) : Option (V × Store V) :=
  waitFrom states jobId 0 fuel

theorem waitFrom_reaches {V : Type} (states : Nat → Store V)
    (jobId : String) (v : V) (T : Nat) (hv : states T jobId = some v) :
    ∀ (fuel t : Nat), t ≤ T → T < t + fuel →
      (∀ s, t ≤ s → s < T → states s jobId = none) →
      waitFrom states jobId t fuel = dictPop (states T) jobId := by
  intro fuel
  induction fuel with
  | zero => intro t h1 h2 _; omega
  | succ n ih =>
    intro t h1 h2 hnone
    simp only [waitFrom]
    rcases Nat.lt_or_ge t T with hlt | hge
    · rw [hnone t (le_refl t) hlt]
      exact ih (t + 1) hlt (by omega) (fun s hs1 hs2 => hnone s (by omega) hs2)
    · have : t = T := le_antisymm h1 hge
      subst this
      rw [hv]

/-- C3: `wait` blocks (polls) until a terminal outcome exists for the job
id, then retrieves and removes it; after the first call has consumed the
outcome, the store holds no pending result for that id, so a second pop
finds nothing. -/
theorem wait_consumes_exactly_once :
    ∀ (V : Type) (states : Nat → Store V) (jobId : String) (v : V)
      (T fuel : Nat),
      (∀ s, s < T → states s jobId = none) → states T jobId = some v →
      T < fuel →
      ∃ res' : Store V,
        waitResult states jobId fuel = some (v, res') ∧
        res' jobId = none ∧
        dictPop res' jobId = none := by
  intro V states jobId v T fuel hnone hv hfuel
  refine ⟨fun j => if j = jobId then none else states T j, ?_, ?_, ?_⟩
  · rw [waitResult,
      waitFrom_reaches states jobId v T hv fuel 0 (Nat.zero_le T)
        (by omega) (fun s _ hs => hnone s hs)]
    rw [dictPop, hv]
  · simp
  · rw [dictPop]
    simp

theorem wait_consumes_exactly_once_witness :
    ∃ res' : Store Nat,
      waitResult (fun _ j => if j = "job-1" then some 42 else none)
          "job-1" 1 = some (42, res') ∧
      res' "job-1" = none ∧
      dictPop res' "job-1" = none :=
  wait_consumes_exactly_once Nat
    (fun _ j => if j = "job-1" then some 42 else none) "job-1" 42 0 1
    (fun s hs => absurd hs (Nat.not_lt_zero s)) (by simp) (by decide)

/-! ### C2: priority / FIFO dequeue order -/

/-- First job of the ordering scenario: priority "high", enqueued first. -/
def jobHigh1 : PQItem Unit := ⟨prioVal "high", 0, "job1", (), "qasm1", 3, 0⟩

/-- Second job of the ordering scenario: priority "low". -/
def jobLow : PQItem Unit := ⟨prioVal "low", 1, "job2", (), "qasm2", 3, 0⟩

/-- Third job of the ordering scenario: priority "high", enqueued last. -/
def jobHigh2 : PQItem Unit := ⟨prioVal "high", 2, "job3", (), "qasm3", 3, 0⟩

/-- C2: the scheduler always dequeues a record with strictly lower numeric
priority before any record with a higher value, and among equal priorities
the one with the earlier enqueue sequence; dequeuing loses no record
(permutation); submitting priorities high, low, high in that order
executes first-submitted-high, then second-submitted-high, then low. -/
theorem priority_fifo_order :
    (∀ (D : Type) (q : List (PQItem D)) (m : PQItem D)
        (rest : List (PQItem D)),
        popMin q = some (m, rest) →
        (∀ y ∈ q, m.priority < y.priority ∨
          (m.priority = y.priority ∧ m.seq ≤ y.seq)) ∧
        q.Perm (m :: rest)) ∧
    (∀ (D : Type) (q : List (PQItem D)), (drain q).Perm q) ∧
    (drain [jobHigh1, jobLow, jobHigh2]).map (fun i => i.jobId) =
      ["job1", "job3", "job2"] := by
  refine ⟨?_, ?_, ?_⟩
  · intro D q m rest h
    exact ⟨fun y hy => popMin_min q m rest h y hy, popMin_perm q m rest h⟩
  · intro D q
    exact drain_perm q
  · rfl

theorem priority_fifo_order_witness :
    ((∀ y ∈ [jobHigh1, jobLow, jobHigh2],
        jobHigh1.priority < y.priority ∨
          (jobHigh1.priority = y.priority ∧ jobHigh1.seq ≤ y.seq)) ∧
      ([jobHigh1, jobLow, jobHigh2]).Perm (jobHigh1 :: [jobLow, jobHigh2])) :=
  priority_fifo_order.1 Unit [jobHigh1, jobLow, jobHigh2] jobHigh1
    [jobLow, jobHigh2] rfl

/-! ### Compiler IR: the Gate model as the optimizer manipulates it
(compiler/optimizer.py; gates come from compiler/parser.py) -/

/-- A gate: operation tag, optional target and control wires, and an
optional parameter dictionary from parameter names to float angles
(floats modelled as reals; `_fuse_rotations` reads and writes the key
"theta").  The dictionary is an association list. -/
structure Gate where
  op : String
  target : Option Nat
  control : Option Nat
  params : Option (List (String × ℝ))

/-- `d.get(k, default)` on a string-keyed dict. -/
def dget (d : List (String × ℝ)) (k : String) (default : ℝ) : ℝ :=
  match d with
  | [] => default
  | (k', v) :: rest => if k' = k then v else dget rest k default

/-- `d[k] = v` on a string-keyed dict: overwrite an existing key's value,
else add the key. -/
def dset (d : List (String × ℝ)) (k : String) (v : ℝ) :
    List (String × ℝ) :=
  match d with
  | [] => [(k, v)]
  | (k', v') :: rest =>
    if k' = k then (k', v) :: rest else (k', v') :: dset rest k v

/-- Python truthiness of an optional dict: `None` and the empty dict are
falsy, a nonempty dict is truthy. -/
def truthy {α : Type} : Option (List α) → Bool
  | none => false
  | some [] => false
  | some (_ :: _) => true

/-! ### Pass 1: `_cancel_inverses` (optimizer.py lines 87-99) -/

/-- `_INV` (lines 23-27) as `.get`: self-inverse X, Y, Z, H and the mutual
inverse pairs T/TDG and S/SDG; any other tag yields `None`. -/
def INV : String → Option String := fun s =>
  if s = "X" then some "X"
  else if s = "Y" then some "Y"
  else if s = "Z" then some "Z"
  else if s = "H" then some "H"
  else if s = "T" then some "TDG"
  else if s = "TDG" then some "T"
  else if s = "S" then some "SDG"
  else if s = "SDG" then some "S"
  else none

/-- The cancellation condition of lines 91-95, checked against the last
gate of the output buffer: `_INV.get(g.op) == out[-1].op`, identical
target and control, and both parameter fields `None`. -/
def cancels (last : Gate) (g : Gate) : Bool :=
  INV g.op == some last.op && g.target == last.target &&
    g.control == last.control && g.params.isNone && last.params.isNone

/-- One iteration of the `_cancel_inverses` loop: pop on match, else
push. -/
def cancelStep (out : List Gate) (g : Gate) : List Gate :=
  match out.getLast? with
  | some last => if cancels last g then out.dropLast else out ++ [g]
  | none => out ++ [g]

/-- `_cancel_inverses`: single forward pass with the output buffer used as
a stack. -/
def cancel_inverses (gates : List Gate) : List Gate :=
  gates.foldl cancelStep []

/-- Adjacent gates of a cancel-stable buffer never satisfy the
cancellation condition. -/
def NoCancel (l : List Gate) : Prop :=
  List.Chain' (fun a b => cancels a b = false) l

theorem cancelStep_noCancel (out : List Gate) (g : Gate)
    (h : NoCancel out) : NoCancel (cancelStep out g) := by
  unfold cancelStep
  cases hl : out.getLast? with
  | none =>
    have : out = [] := by
      cases out with
      | nil => rfl
      | cons x xs => simp [List.getLast?_concat, List.getLast?] at hl
    subst this
    simp [NoCancel]
  | some last =>
    by_cases hc : cancels last g
    · simp only [hc, if_true]
      obtain ⟨l', rfl⟩ : ∃ l', out = l' ++ [last] := by
        rcases List.eq_nil_or_concat out with rfl | ⟨l', a, rfl⟩
        · simp at hl
        · rw [List.concat_eq_append, List.getLast?_concat] at hl
          obtain rfl : a = last := by simpa using hl
          exact ⟨l', List.concat_eq_append _ _⟩
      rw [List.dropLast_concat]
      exact ((List.chain'_append.mp h).1)
    · simp only [hc, if_false, Bool.false_eq_true]
      rw [NoCancel, List.chain'_append]
      refine ⟨h, List.chain'_singleton g, ?_⟩
      intro x hx y hy
      simp only [List.head?_cons, Option.mem_def, Option.some.injEq] at hy
      subst hy
      rw [hl] at hx
      simp only [Option.mem_def, Option.some.injEq] at hx
      subst hx
      simpa using hc

theorem foldl_cancelStep_noCancel (l : List Gate) :
    ∀ out : List Gate, NoCancel out → NoCancel (l.foldl cancelStep out) := by
  induction l with
  | nil => intro out h; exact h
  | cons g rest ih =>
    intro out h
    exact ih (cancelStep out g) (cancelStep_noCancel out g h)

theorem cancel_inverses_noCancel (gates : List Gate) :
    NoCancel (cancel_inverses gates) :=
  foldl_cancelStep_noCancel gates [] (by simp [NoCancel])

theorem foldl_cancelStep_stable (l : List Gate) :
    ∀ out : List Gate, NoCancel (out ++ l) → l.foldl cancelStep out = out ++ l := by
  induction l with
  | nil => intro out h; simp
  | cons g rest ih =>
    intro out h
    have hstep : cancelStep out g = out ++ [g] := by
      unfold cancelStep
      cases hl : out.getLast? with
      | none => rfl
      | some last =>
        have hcg : cancels last g = false := by
          have := (List.chain'_append.mp (h : List.Chain' _ (out ++ g :: rest))).2.2
          have := this last (by rw [hl]; rfl) g (by simp)
          exact this
        simp [hcg]
    rw [List.foldl_cons, hstep, List.append_cons out g rest] at *
    exact ih (out ++ [g]) h

/-- C5: the inverse-cancellation pass is the single forward pass over a
growing output buffer used as a stack (pop on the cancellation condition,
else push); any adjacent true inverse pair on identical (target, control)
with no parameters cancels to nothing; and applying the pass a second time
to its own output changes nothing. -/
theorem cancel_inverses_spec :
    (∀ (out : List Gate) (g last : Gate), out.getLast? = some last →
        cancelStep out g =
          if cancels last g then out.dropLast else out ++ [g]) ∧
    (∀ a g : Gate, cancels a g = true → cancel_inverses [a, g] = []) ∧
    (∀ gates : List Gate,
        cancel_inverses (cancel_inverses gates) = cancel_inverses gates) := by
  refine ⟨?_, ?_, ?_⟩
  · intro out g last h
    unfold cancelStep
    rw [h]
  · intro a g h
    unfold cancel_inverses
    simp [cancelStep, List.getLast?, h]
  · intro gates
    have h1 := cancel_inverses_noCancel gates
    unfold cancel_inverses
    have := foldl_cancelStep_stable (cancel_inverses gates) [] (by simpa using h1)
    simpa using this

/-- A concrete self-inverse pair: two X gates on wire 0. -/
def gateX0 : Gate := ⟨"X", some 0, none, none⟩

theorem cancel_inverses_spec_witness :
    cancelStep [gateX0] gateX0 =
      (if cancels gateX0 gateX0 then [gateX0].dropLast
        else [gateX0] ++ [gateX0]) ∧
    cancel_inverses [gateX0, gateX0] = [] ∧
    cancel_inverses (cancel_inverses [gateX0, gateX0]) =
      cancel_inverses [gateX0, gateX0] :=
  ⟨cancel_inverses_spec.1 [gateX0] gateX0 gateX0 rfl,
   cancel_inverses_spec.2.1 gateX0 gateX0 (by decide),
   cancel_inverses_spec.2.2 [gateX0, gateX0]⟩

/-! ### Pass 4: `_qubit_remap` (optimizer.py lines 159-190) -/

/-- `_get_or_alloc_new_wire` (lines 167-173): look the original wire up in
the mapping, allocating the next fresh compact index on first use.
Returns the new index and the updated (mapping, next) state. -/
def getOrAlloc (m : Nat → Option Nat) (next : Nat) (w : Nat) :
    Nat × (Nat → Option Nat) × Nat :=
  match m w with
  | some n => (n, m, next)
  | none => (next, fun x => if x = w then some next else m x, next + 1)

/-- The optional-wire handling of lines 177-183: a `None` wire (global
barrier) is left alone and allocates nothing. -/
def remapWire (m : Nat → Option Nat) (next : Nat) :
    Option Nat → Option Nat × (Nat → Option Nat) × Nat
  | none => (none, m, next)
  | some w =>
    let r := getOrAlloc m next w
    (some r.1, r.2.1, r.2.2)

/-- The loop of `_qubit_remap` from a given mapping state: target first,
then control, building a fresh `Gate` with the remapped wires
(line 187). -/
def qubitRemapAux : List Gate → (Nat → Option Nat) → Nat →
    List Gate × (Nat → Option Nat) × Nat
  | [], m, next => ([], m, next)
  | g :: rest, m, next =>
    let rt := remapWire m next g.target
    let rc := remapWire rt.2.1 rt.2.2 g.control
    let rr := qubitRemapAux rest rc.2.1 rc.2.2
    (⟨g.op, rt.1, rc.1, g.params⟩ :: rr.1, rr.2.1, rr.2.2)

/-- `_qubit_remap`: the remapped gates and the count of unique new wire
indices (`next_new_wire_idx`). -/
def qubit_remap (gates : List Gate) : List Gate × Nat :=
  let r := qubitRemapAux gates (fun _ => none) 0
  (r.1, r.2.2)

/-- The sequence of wire indices on which `_get_or_alloc_new_wire` is
called: for each gate its target (if present) then its control (if
present). -/
def gateRefs (g : Gate) : List Nat := g.target.toList ++ g.control.toList

/-- All wire references of a gate list, in allocation order. -/
def refsOf (gates : List Gate) : List Nat :=
  gates.foldr (fun g acc => gateRefs g ++ acc) []

/-- The distinct referenced wires, in first-use order. -/
def firstUses (ws : List Nat) : List Nat :=
  ws.foldl (fun acc w => if w ∈ acc then acc else acc ++ [w]) []

/-- Index of the first occurrence of `w`, if any. -/
def idxIn (w : Nat) : List Nat → Option Nat
  | [] => none
  | x :: xs => if x = w then some 0 else (idxIn w xs).map (· + 1)

/-- The allocation-state evolution alone, over the reference sequence. -/
def allocFold (ws : List Nat) (m : Nat → Option Nat) (next : Nat) :
    (Nat → Option Nat) × Nat :=
  ws.foldl (fun p w => let r := getOrAlloc p.1 p.2 w; (r.2.1, r.2.2)) (m, next)

theorem allocFold_append (ws1 ws2 : List Nat) (m : Nat → Option Nat)
    (next : Nat) :
    allocFold (ws1 ++ ws2) m next =
      allocFold ws2 (allocFold ws1 m next).1 (allocFold ws1 m next).2 := by
  unfold allocFold
  rw [List.foldl_append]

theorem qubitRemapAux_state (gates : List Gate) :
    ∀ (m : Nat → Option Nat) (next : Nat),
      (qubitRemapAux gates m next).2 = allocFold (refsOf gates) m next := by
  induction gates with
  | nil => intro m next; rfl
  | cons g rest ih =>
    intro m next
    show (qubitRemapAux (g :: rest) m next).2 =
      allocFold (gateRefs g ++ refsOf rest) m next
    rw [allocFold_append]
    cases ht : g.target with
    | none =>
      cases hc : g.control with
      | none =>
        simp only [qubitRemapAux, ht, hc, remapWire]
        rw [ih]
        simp [gateRefs, ht, hc, allocFold]
      | some c =>
        simp only [qubitRemapAux, ht, hc, remapWire]
        rw [ih]
        simp [gateRefs, ht, hc, allocFold]
    | some t =>
      cases hc : g.control with
      | none =>
        simp only [qubitRemapAux, ht, hc, remapWire]
        rw [ih]
        simp [gateRefs, ht, hc, allocFold]
      | some c =>
        simp only [qubitRemapAux, ht, hc, remapWire]
        rw [ih]
        simp [gateRefs, ht, hc, allocFold]

theorem idxIn_cons (x a : Nat) (l : List Nat) :
    idxIn x (a :: l) = if a = x then some 0 else (idxIn x l).map (· + 1) := rfl

theorem idxIn_append_one (x w : Nat) (acc : List Nat) :
    idxIn x (acc ++ [w]) =
      match idxIn x acc with
      | some n => some n
      | none => if w = x then some acc.length else none := by
  induction acc with
  | nil => by_cases hwx : w = x <;> simp [idxIn, hwx]
  | cons a rest ih =>
    rw [List.cons_append, idxIn_cons, idxIn_cons, ih]
    by_cases hax : a = x
    · rw [if_pos hax, if_pos hax]
    · rw [if_neg hax, if_neg hax]
      cases h : idxIn x rest with
      | none =>
        by_cases hwx : w = x
        · simp [hwx]
        · simp [hwx]
      | some n => simp

theorem idxIn_mem (x : Nat) (l : List Nat) :
    (idxIn x l).isSome = true ↔ x ∈ l := by
  induction l with
  | nil => simp [idxIn]
  | cons a rest ih =>
    rw [idxIn_cons]
    by_cases hax : a = x
    · subst hax
      simp
    · rw [if_neg hax]
      have hxa : ¬ x = a := fun hh => hax hh.symm
      cases h : idxIn x rest with
      | none =>
        rw [h] at ih
        simp only [Option.isSome_none, Bool.false_eq_true, false_iff] at ih
        simp [List.mem_cons, ih, hxa]
      | some n =>
        rw [h] at ih
        simp only [Option.isSome_some, true_iff] at ih
        simp [List.mem_cons, ih]

theorem idxIn_lt_length (x : Nat) (l : List Nat) (n : Nat)
    (h : idxIn x l = some n) : n < l.length := by
  induction l generalizing n with
  | nil => simp [idxIn] at h
  | cons a rest ih =>
    rw [idxIn_cons] at h
    by_cases hax : a = x
    · rw [if_pos hax] at h
      obtain rfl : (0 : Nat) = n := by simpa using h
      simp
    · rw [if_neg hax] at h
      obtain ⟨k, hk, hkn⟩ := Option.map_eq_some'.mp h
      have := ih k hk
      simp only [List.length_cons]
      omega

theorem idxIn_inj (l : List Nat) (x y n : Nat) (hx : idxIn x l = some n)
    (hy : idxIn y l = some n) : x = y := by
  induction l generalizing n with
  | nil => simp [idxIn] at hx
  | cons a rest ih =>
    rw [idxIn_cons] at hx hy
    by_cases hax : a = x <;> by_cases hay : a = y
    · rw [← hax, ← hay]
    · rw [if_pos hax] at hx
      rw [if_neg hay] at hy
      obtain ⟨k, hk, hkn⟩ := Option.map_eq_some'.mp hy
      have hn0 : 0 = n := by simpa using hx
      omega
    · rw [if_pos hay] at hy
      rw [if_neg hax] at hx
      obtain ⟨k, hk, hkn⟩ := Option.map_eq_some'.mp hx
      have hn0 : 0 = n := by simpa using hy
      omega
    · rw [if_neg hax] at hx
      rw [if_neg hay] at hy
      obtain ⟨kx, hkx, hkxn⟩ := Option.map_eq_some'.mp hx
      obtain ⟨ky, hky, hkyn⟩ := Option.map_eq_some'.mp hy
      have hkk : kx = ky := by omega
      rw [← hkk] at hky
      exact ih kx hkx hky

theorem exists_idxIn_of_nodup (l : List Nat) (hnd : l.Nodup) :
    ∀ n < l.length, ∃ x ∈ l, idxIn x l = some n := by
  induction l with
  | nil => intro n hn; simp at hn
  | cons a rest ih =>
    intro n hn
    cases n with
    | zero => exact ⟨a, List.mem_cons_self a rest, by simp [idxIn]⟩
    | succ k =>
      obtain ⟨x, hxmem, hx⟩ := ih (List.nodup_cons.mp hnd).2 k
        (by simpa using Nat.lt_of_succ_lt_succ hn)
      have hax : a ≠ x := fun hax =>
        (List.nodup_cons.mp hnd).1 (hax ▸ hxmem)
      exact ⟨x, List.mem_cons_of_mem a hxmem, by simp [idxIn, hax, hx]⟩

theorem firstUses_nodup_from (ws : List Nat) :
    ∀ acc : List Nat, acc.Nodup →
      (ws.foldl (fun acc w => if w ∈ acc then acc else acc ++ [w]) acc).Nodup := by
  induction ws with
  | nil => intro acc h; exact h
  | cons w rest ih =>
    intro acc h
    simp only [List.foldl_cons]
    by_cases hw : w ∈ acc
    · simpa [hw] using ih acc h
    · have : (acc ++ [w]).Nodup := by
        simp [List.nodup_append, h, hw]
      simpa [hw] using ih (acc ++ [w]) this

theorem firstUses_nodup (ws : List Nat) : (firstUses ws).Nodup :=
  firstUses_nodup_from ws [] List.nodup_nil

theorem allocFold_cons (w : Nat) (ws : List Nat) (m : Nat → Option Nat)
    (next : Nat) :
    allocFold (w :: ws) m next =
      allocFold ws (getOrAlloc m next w).2.1 (getOrAlloc m next w).2.2 := rfl

theorem allocFold_firstUses (ws : List Nat) :
    ∀ acc : List Nat,
      allocFold ws (fun w => idxIn w acc) acc.length =
        (fun w => idxIn w
          (ws.foldl (fun acc w => if w ∈ acc then acc else acc ++ [w]) acc),
          (ws.foldl (fun acc w => if w ∈ acc then acc else acc ++ [w]) acc).length) := by
  induction ws with
  | nil => intro acc; rfl
  | cons w rest ih =>
    intro acc
    rw [allocFold_cons, List.foldl_cons]
    by_cases hw : w ∈ acc
    · have hsome : (idxIn w acc).isSome = true := (idxIn_mem w acc).mpr hw
      obtain ⟨n, hn⟩ := Option.isSome_iff_exists.mp hsome
      have hga : getOrAlloc (fun w => idxIn w acc) acc.length w =
          (n, fun w => idxIn w acc, acc.length) := by
        simp [getOrAlloc, hn]
      rw [hga, if_pos hw]
      exact ih acc
    · have hnone : idxIn w acc = none := by
        cases h : idxIn w acc with
        | none => rfl
        | some n =>
          exact absurd ((idxIn_mem w acc).mp (by simp [h])) hw
      have hga : getOrAlloc (fun w => idxIn w acc) acc.length w =
          (acc.length, fun x => if x = w then some acc.length else idxIn x acc,
            acc.length + 1) := by
        simp [getOrAlloc, hnone]
      rw [hga, if_neg hw]
      have hfun : (fun x => if x = w then some acc.length else idxIn x acc) =
          (fun x => idxIn x (acc ++ [w])) := by
        funext x
        rw [idxIn_append_one]
        by_cases hxw : x = w
        · subst hxw
          rw [hnone, if_pos rfl]
        · rw [if_neg hxw]
          cases h : idxIn x acc with
          | none =>
            have hwx : ¬ w = x := fun hh => hxw hh.symm
            simp [hwx]
          | some n => simp
      have hlen : acc.length + 1 = (acc ++ [w]).length := by simp
      show allocFold rest
          (fun x => if x = w then some acc.length else idxIn x acc)
          (acc.length + 1) = _
      rw [hfun, hlen]
      exact ih (acc ++ [w])

/-! ### Pass 5: `_count_depth` (optimizer.py lines 193-241) -/

/-- Read `layer_busy_until[w]`: a `defaultdict(int)` read defaults to 0.
(The real defaultdict also inserts the default on a read; the inserted
zeros never change `max(values())`, the dict's only other use, so the
model omits the insertion.) -/
def busyGet (busy : List (Nat × Nat)) (w : Nat) : Nat :=
  match busy with
  | [] => 0
  | (w', v) :: rest => if w' = w then v else busyGet rest w

/-- Write `layer_busy_until[w] = v`. -/
def busySet (busy : List (Nat × Nat)) (w : Nat) (v : Nat) :
    List (Nat × Nat) :=
  match busy with
  | [] => [(w, v)]
  | (w', v') :: rest =>
    if w' = w then (w', v) :: rest else (w', v') :: busySet rest w v

/-- `max(layer_busy_until.values())`, 0 for an empty dict (the guarded
branch of lines 210-212). -/
def busyMaxVal (busy : List (Nat × Nat)) : Nat :=
  (busy.map Prod.snd).foldl max 0

/-- One loop iteration of `_count_depth` on the state (busy dict, running
maximum): global barriers synchronise all `numQubits` wires to one past
the current maximum; a single-wire gate finishes one layer after its
wire's counter; a two-wire gate finishes one layer after the maximum of
its two wires' counters, updating both; a untargeted non-barrier gate is
skipped (the warning branch of lines 222-227). -/
def stepDepth (numQubits : Nat) (st : List (Nat × Nat) × Nat) (g : Gate) :
    List (Nat × Nat) × Nat :=
  if g.op = "BARRIER" ∧ g.target = none then
    let ends := busyMaxVal st.1 + 1
    ((List.range numQubits).foldl (fun b i => busySet b i ends) st.1,
      max st.2 ends)
  else
    match g.target with
    | none => st
    | some t =>
      match g.control with
      | none =>
        let fin := busyGet st.1 t + 1
        (busySet st.1 t fin, max st.2 fin)
      | some c =>
        let fin := max (busyGet st.1 t) (busyGet st.1 c) + 1
        (busySet (busySet st.1 t fin) c fin, max st.2 fin)

/-- `_count_depth`: 0 for an empty gate list, else the final running
maximum of the ASAP layering loop. -/
def count_depth (gates : List Gate) (numQubits : Nat) : Nat :=
  match gates with
  | [] => 0
  | _ => (gates.foldl (stepDepth numQubits) ([], 0)).2

theorem count_depth_eq_foldl (gates : List Gate) (q : Nat) :
    count_depth gates q = (gates.foldl (stepDepth q) ([], 0)).2 := by
  cases gates <;> rfl

theorem busyGet_set_same (b : List (Nat × Nat)) (w v : Nat) :
    busyGet (busySet b w v) w = v := by
  induction b with
  | nil => simp [busySet, busyGet]
  | cons p rest ih =>
    obtain ⟨w', v'⟩ := p
    by_cases h : w' = w
    · simp [busySet, busyGet, h]
    · simp [busySet, busyGet, h, ih]

theorem busyGet_set_other (b : List (Nat × Nat)) (w v w' : Nat)
    (h : w' ≠ w) : busyGet (busySet b w v) w' = busyGet b w' := by
  have hww : ¬ w = w' := fun hh => h hh.symm
  induction b with
  | nil => simp [busySet, busyGet, hww]
  | cons p rest ih =>
    obtain ⟨a, x⟩ := p
    by_cases ha : a = w
    · subst ha
      simp [busySet, busyGet, hww]
    · simp [busySet, busyGet, ha, ih]

theorem stepDepth_single (q : Nat) (st : List (Nat × Nat) × Nat) (g : Gate)
    (t : Nat) (ht : g.target = some t) (hc : g.control = none) :
    stepDepth q st g =
      (busySet st.1 t (busyGet st.1 t + 1),
        max st.2 (busyGet st.1 t + 1)) := by
  unfold stepDepth
  simp [ht, hc]

theorem replicate_single_state (g : Gate) (t : Nat) (ht : g.target = some t)
    (hc : g.control = none) (q : Nat) :
    ∀ (n : Nat) (b : List (Nat × Nat)) (d : Nat),
      busyGet (((List.replicate n g).foldl (stepDepth q) (b, d)).1) t =
        busyGet b t + n ∧
      ((List.replicate n g).foldl (stepDepth q) (b, d)).2 =
        (if n = 0 then d else max d (busyGet b t + n)) := by
  intro n
  induction n with
  | zero => intro b d; simp
  | succ k ih =>
    intro b d
    rw [List.replicate_succ, List.foldl_cons, stepDepth_single q (b, d) g t ht hc]
    obtain ⟨ih1, ih2⟩ := ih (busySet b t (busyGet b t + 1)) (max d (busyGet b t + 1))
    rw [busyGet_set_same] at ih1 ih2
    refine ⟨by rw [ih1]; omega, ?_⟩
    rw [ih2]
    by_cases hk : k = 0
    · subst hk; simp
    · simp only [hk, if_false]
      have : ¬ (k + 1 = 0) := by omega
      simp only [this, if_false]
      omega

/-- Depth of a linear chain of `N` copies of a single-wire gate. -/
theorem count_depth_chain (g : Gate) (t : Nat) (ht : g.target = some t)
    (hc : g.control = none) (q N : Nat) :
    count_depth (List.replicate N g) q = N := by
  cases N with
  | zero => rfl
  | succ k =>
    rw [count_depth_eq_foldl]
    obtain ⟨_, h2⟩ := replicate_single_state g t ht hc q (k + 1) [] 0
    rw [h2]
    simp [busyGet]

theorem indep_state (q : Nat) :
    ∀ n : Nat,
      (∀ i, n ≤ i →
        busyGet (((List.range n).map
          (fun i => Gate.mk "H" (some i) none none)).foldl
            (stepDepth q) ([], 0)).1 i = 0) ∧
      (((List.range n).map (fun i => Gate.mk "H" (some i) none none)).foldl
          (stepDepth q) ([], 0)).2 = (if n = 0 then 0 else 1) := by
  intro n
  induction n with
  | zero => exact ⟨fun i _ => rfl, rfl⟩
  | succ k ih =>
    obtain ⟨ih1, ih2⟩ := ih
    rw [List.range_succ, List.map_append, List.foldl_append]
    simp only [List.map_cons, List.map_nil, List.foldl_cons, List.foldl_nil]
    rw [show (((List.range k).map
        (fun i => Gate.mk "H" (some i) none none)).foldl
          (stepDepth q) ([], 0)) =
        ((((List.range k).map (fun i => Gate.mk "H" (some i) none none)).foldl
          (stepDepth q) ([], 0)).1,
         (((List.range k).map (fun i => Gate.mk "H" (some i) none none)).foldl
          (stepDepth q) ([], 0)).2) from rfl]
    rw [stepDepth_single q _ (Gate.mk "H" (some k) none none) k rfl rfl]
    rw [ih1 k (le_refl k), ih2]
    constructor
    · intro i hi
      have hik : i ≠ k := by omega
      rw [busyGet_set_other _ _ _ _ hik]
      exact ih1 i (by omega)
    · by_cases hk : k = 0
      · subst hk; simp
      · simp [hk]

/-- Depth of `N` independent single-qubit gates on `N` distinct wires. -/
theorem count_depth_indep (q N : Nat) (hN : 1 ≤ N) :
    count_depth ((List.range N).map
      (fun i => Gate.mk "H" (some i) none none)) q = 1 := by
  have hne : (List.range N).map (fun i => Gate.mk "H" (some i) none none) ≠ [] := by
    intro h
    have := congrArg List.length h
    simp at this
    omega
  rw [count_depth_eq_foldl]
  obtain ⟨_, h2⟩ := indep_state q N
  rw [h2]
  simp only [show N ≠ 0 by omega, if_false]

theorem busyGet_range_fold (v : Nat) :
    ∀ (q : Nat) (b : List (Nat × Nat)) (i : Nat),
      busyGet ((List.range q).foldl (fun b i => busySet b i v) b) i =
        (if i < q then v else busyGet b i) := by
  intro q
  induction q with
  | zero => intro b i; simp
  | succ k ih =>
    intro b i
    rw [List.range_succ, List.foldl_append, List.foldl_cons, List.foldl_nil]
    by_cases hik : i = k
    · subst hik
      rw [busyGet_set_same]
      simp
    · rw [busyGet_set_other _ _ _ _ hik, ih]
      by_cases hlt : i < k
      · have h1 : i < k + 1 := by omega
        simp [hlt, h1]
      · have h1 : ¬ i < k + 1 := by omega
        simp [hlt, h1]

theorem stepDepth_two (q : Nat) (st : List (Nat × Nat) × Nat) (g : Gate)
    (t c : Nat) (ht : g.target = some t) (hc : g.control = some c) :
    stepDepth q st g =
      (busySet (busySet st.1 t (max (busyGet st.1 t) (busyGet st.1 c) + 1)) c
          (max (busyGet st.1 t) (busyGet st.1 c) + 1),
        max st.2 (max (busyGet st.1 t) (busyGet st.1 c) + 1)) := by
  unfold stepDepth
  simp [ht, hc]

theorem stepDepth_barrier (q : Nat) (st : List (Nat × Nat) × Nat) (g : Gate)
    (hop : g.op = "BARRIER") (ht : g.target = none) :
    stepDepth q st g =
      ((List.range q).foldl
          (fun b i => busySet b i (busyMaxVal st.1 + 1)) st.1,
        max st.2 (busyMaxVal st.1 + 1)) := by
  unfold stepDepth
  simp [hop, ht]

/-- C8: depth is computed by ASAP layering — a single-wire gate finishes
one layer after its wire's busy counter, a two-wire gate one layer after
the maximum of its two wires' counters (updating both), a global barrier
sets every wire's counter to one past the current maximum; the final
depth is the maximum finishing layer, 0 for an empty list.  Consequently
a linear chain of N single-qubit gates on one wire has depth N and N
independent single-qubit gates on N distinct wires have depth 1. -/
theorem count_depth_spec :
    (∀ q, count_depth [] q = 0) ∧
    (∀ (g : Gate) (t : Nat), g.target = some t → g.control = none →
      ∀ q N, count_depth (List.replicate N g) q = N) ∧
    (∀ q N, 1 ≤ N →
      count_depth ((List.range N).map
        (fun i => Gate.mk "H" (some i) none none)) q = 1) ∧
    (∀ (q : Nat) (st : List (Nat × Nat) × Nat) (g : Gate) (t : Nat),
      g.target = some t → g.control = none →
      (stepDepth q st g).2 = max st.2 (busyGet st.1 t + 1) ∧
      busyGet (stepDepth q st g).1 t = busyGet st.1 t + 1) ∧
    (∀ (q : Nat) (st : List (Nat × Nat) × Nat) (g : Gate) (t c : Nat),
      g.target = some t → g.control = some c →
      (stepDepth q st g).2 =
        max st.2 (max (busyGet st.1 t) (busyGet st.1 c) + 1) ∧
      busyGet (stepDepth q st g).1 t =
        max (busyGet st.1 t) (busyGet st.1 c) + 1 ∧
      busyGet (stepDepth q st g).1 c =
        max (busyGet st.1 t) (busyGet st.1 c) + 1) ∧
    (∀ (q : Nat) (st : List (Nat × Nat) × Nat) (g : Gate),
      g.op = "BARRIER" → g.target = none →
      (stepDepth q st g).2 = max st.2 (busyMaxVal st.1 + 1) ∧
      ∀ i, i < q → busyGet (stepDepth q st g).1 i = busyMaxVal st.1 + 1) := by
  refine ⟨fun q => rfl, ?_, ?_, ?_, ?_, ?_⟩
  · intro g t ht hc q N
    exact count_depth_chain g t ht hc q N
  · intro q N hN
    exact count_depth_indep q N hN
  · intro q st g t ht hc
    rw [stepDepth_single q st g t ht hc]
    exact ⟨rfl, busyGet_set_same _ _ _⟩
  · intro q st g t c ht hc
    rw [stepDepth_two q st g t c ht hc]
    refine ⟨rfl, ?_, busyGet_set_same _ _ _⟩
    by_cases htc : t = c
    · subst htc
      rw [busyGet_set_same]
    · rw [busyGet_set_other _ _ _ _ htc, busyGet_set_same]
  · intro q st g hop ht
    rw [stepDepth_barrier q st g hop ht]
    refine ⟨rfl, ?_⟩
    intro i hi
    rw [busyGet_range_fold (busyMaxVal st.1 + 1) q st.1 i]
    simp [hi]

theorem count_depth_spec_witness :
    count_depth (List.replicate 3 (Gate.mk "H" (some 0) none none)) 5 = 3 ∧
    count_depth ((List.range 2).map
      (fun i => Gate.mk "H" (some i) none none)) 2 = 1 ∧
    ((stepDepth 5 ([(0, 2)], 2) (Gate.mk "H" (some 0) none none)).2 =
        max 2 (busyGet [(0, 2)] 0 + 1) ∧
      busyGet (stepDepth 5 ([(0, 2)], 2)
        (Gate.mk "H" (some 0) none none)).1 0 = busyGet [(0, 2)] 0 + 1) ∧
    ((stepDepth 5 ([(0, 2)], 2) (Gate.mk "CX" (some 1) (some 0) none)).2 =
        max 2 (max (busyGet [(0, 2)] 1) (busyGet [(0, 2)] 0) + 1) ∧
      busyGet (stepDepth 5 ([(0, 2)], 2)
          (Gate.mk "CX" (some 1) (some 0) none)).1 1 =
        max (busyGet [(0, 2)] 1) (busyGet [(0, 2)] 0) + 1 ∧
      busyGet (stepDepth 5 ([(0, 2)], 2)
          (Gate.mk "CX" (some 1) (some 0) none)).1 0 =
        max (busyGet [(0, 2)] 1) (busyGet [(0, 2)] 0) + 1) ∧
    ((stepDepth 2 ([(0, 3)], 3) (Gate.mk "BARRIER" none none none)).2 =
        max 3 (busyMaxVal [(0, 3)] + 1) ∧
      ∀ i, i < 2 → busyGet (stepDepth 2 ([(0, 3)], 3)
        (Gate.mk "BARRIER" none none none)).1 i = busyMaxVal [(0, 3)] + 1) :=
  ⟨count_depth_spec.2.1 (Gate.mk "H" (some 0) none none) 0 rfl rfl 5 3,
   count_depth_spec.2.2.1 2 2 (by decide),
   count_depth_spec.2.2.2.1 5 ([(0, 2)], 2)
     (Gate.mk "H" (some 0) none none) 0 rfl rfl,
   count_depth_spec.2.2.2.2.1 5 ([(0, 2)], 2)
     (Gate.mk "CX" (some 1) (some 0) none) 1 0 rfl rfl,
   count_depth_spec.2.2.2.2.2 2 ([(0, 3)], 3)
     (Gate.mk "BARRIER" none none none) rfl rfl⟩

open scoped Classical

/-! ### Pass 2: `_fuse_rotations` (optimizer.py lines 101-123)

Angles are Python floats, modelled as real numbers: `%` becomes the exact
real modulus (for a positive modulus Python's `%` returns
`a - b * floor(a / b)`), and the tolerance comparison is exact. -/

/-- `_ROT` (line 29). -/
def ROT (s : String) : Bool := s == "RX" || s == "RY" || s == "RZ"

/-- `2 * math.pi` (line 30). -/
noncomputable def TWO_PI : ℝ := 2 * Real.pi

/-- Python float `a % b` for positive `b`. -/
noncomputable def pymod (a b : ℝ) : ℝ := a - b * ⌊a / b⌋

/-- `_angles_close` (lines 32-33) at the default tolerance `1e-8`:
wrapped shortest-distance comparison modulo 2π. -/
noncomputable def angles_close (a b : ℝ) : Prop :=
  |pymod (a - b + Real.pi) TWO_PI - Real.pi| < 1e-8

/-- The fusion condition of lines 104-109: a rotation whose op and
(target, control) equal the preceding output gate's, both parameter
dicts truthy. -/
def fuseCond (prev g : Gate) : Bool :=
  ROT g.op && g.op == prev.op && g.target == prev.target &&
    g.control == prev.control && truthy g.params && truthy prev.params

/-- `new_theta = (prev_theta + current_theta) % _TWO_PI` (lines 113-115),
with `.get("theta", 0.0)` reads. -/
noncomputable def fusedTheta (prev g : Gate) : ℝ :=
  pymod (dget (prev.params.getD []) "theta" 0 +
    dget (g.params.getD []) "theta" 0) TWO_PI

/-- `prev_gate.params["theta"] = new_theta` (line 120), as the value of
the previous gate after the write. -/
noncomputable def setTheta (g : Gate) (v : ℝ) : Gate :=
  ⟨g.op, g.target, g.control, g.params.map (fun d => dset d "theta" v)⟩

open Classical in
/-- One iteration of the `_fuse_rotations` loop (lines 103-122). -/
noncomputable def fuseStep (out : List Gate) (g : Gate) : List Gate :=
  match out.getLast? with
  | none => out ++ [g]
  | some prev =>
    if fuseCond prev g then
      if angles_close (fusedTheta prev g) 0 then out.dropLast
      else out.dropLast ++ [setTheta prev (fusedTheta prev g)]
    else out ++ [g]

/-- `_fuse_rotations`. -/
noncomputable def fuse_rotations (gates : List Gate) : List Gate :=
  gates.foldl fuseStep []

/-- C4: in the rotation-fusion pass, whenever a rotation gate's op and
(target, control) exactly match the immediately preceding output gate's
and both carry (truthy) parameters, the two theta angles are summed
modulo 2π (`fusedTheta`) and the preceding gate's theta is replaced by
the sum (`setTheta`); if the sum is within 1e-8 of 0 under the wrapped
modulo-2π metric, the fused gate is removed entirely. -/
theorem fuse_rotations_spec :
    ∀ prev g : Gate, fuseCond prev g = true →
      (∀ out : List Gate, out.getLast? = some prev →
        fuseStep out g =
          (if angles_close (fusedTheta prev g) 0
           then out.dropLast
           else out.dropLast ++ [setTheta prev (fusedTheta prev g)])) ∧
      fuse_rotations [prev, g] =
        (if angles_close (fusedTheta prev g) 0
         then []
         else [setTheta prev (fusedTheta prev g)]) := by
  intro prev g hcond
  constructor
  · intro out hlast
    unfold fuseStep
    rw [hlast]
    show (if fuseCond prev g then
        (if angles_close (fusedTheta prev g) 0 then out.dropLast
         else out.dropLast ++ [setTheta prev (fusedTheta prev g)])
      else out ++ [g]) = _
    rw [if_pos hcond]
  · unfold fuse_rotations
    rw [List.foldl_cons, List.foldl_cons, List.foldl_nil]
    have h1 : fuseStep [] prev = [prev] := rfl
    rw [h1]
    unfold fuseStep
    show (if fuseCond prev g then
        (if angles_close (fusedTheta prev g) 0 then [prev].dropLast
         else [prev].dropLast ++ [setTheta prev (fusedTheta prev g)])
      else [prev] ++ [g]) = _
    rw [if_pos hcond]
    by_cases hclose : angles_close (fusedTheta prev g) 0
    · rw [if_pos hclose, if_pos hclose]
      rfl
    · rw [if_neg hclose, if_neg hclose]
      rfl

/-- A concrete rotation for the fusion witness. -/
noncomputable def rzGate : Gate := ⟨"RZ", some 0, none, some [("theta", 1)]⟩

theorem fuse_rotations_spec_witness :
    fuseStep [rzGate] rzGate =
      (if angles_close (fusedTheta rzGate rzGate) 0
       then [rzGate].dropLast
       else [rzGate].dropLast ++
         [setTheta rzGate (fusedTheta rzGate rzGate)]) ∧
    fuse_rotations [rzGate, rzGate] =
      (if angles_close (fusedTheta rzGate rzGate) 0
       then []
       else [setTheta rzGate (fusedTheta rzGate rzGate)]) :=
  ⟨(fuse_rotations_spec rzGate rzGate (by decide)).1 [rzGate] rfl,
   (fuse_rotations_spec rzGate rzGate (by decide)).2⟩

/-! ### Pass 3: `_commute_rotations` (optimizer.py lines 125-157) -/

/-- The commutation test of lines 141-146: an RZ moves left across a CX
or CZ when it acts on the control wire, or across a CZ when it acts on
the target wire (CZ is symmetric). -/
def canCommute (g1 g2 : Gate) : Bool :=
  (g1.op == "CX" || g1.op == "CZ") && g2.op == "RZ" &&
    (g2.target == g1.control || (g1.op == "CZ" && g2.target == g1.target))

/-- Sum of the positions of RZ gates, starting the position count at
`i`. -/
def rzPotAux : Nat → List Gate → Nat
  | _, [] => 0
  | i, g :: rest => (if g.op == "RZ" then i else 0) + rzPotAux (i + 1) rest

/-- Each commuting swap moves one RZ a position to the left while the
swapped CX/CZ is not an RZ, so this measure strictly decreases on every
swap of the while loop. -/
def rzPot (l : List Gate) : Nat := rzPotAux 0 l

theorem rzPotAux_append (l1 l2 : List Gate) :
    ∀ i, rzPotAux i (l1 ++ l2) = rzPotAux i l1 + rzPotAux (i + l1.length) l2 := by
  induction l1 with
  | nil => intro i; simp [rzPotAux]
  | cons g rest ih =>
    intro i
    have h1 : rzPotAux i ((g :: rest) ++ l2) =
        (if (g.op == "RZ") = true then i else 0) +
          rzPotAux (i + 1) (rest ++ l2) := rfl
    have h2 : rzPotAux i (g :: rest) =
        (if (g.op == "RZ") = true then i else 0) + rzPotAux (i + 1) rest := rfl
    rw [h1, h2, ih (i + 1), List.length_cons]
    rw [show i + 1 + rest.length = i + (rest.length + 1) by omega]
    omega

theorem rzPot_swap_lt (l : List Gate) (i : Nat) (h : i + 1 < l.length)
    (hi : i < l.length) (a b : Gate)
    (hga : l.get ⟨i, hi⟩ = a) (hgb : l.get ⟨i + 1, h⟩ = b)
    (haRZ : ¬ a.op = "RZ") (hbRZ : b.op = "RZ") :
    rzPot ((l.set i b).set (i + 1) a) < rzPot l := by
  have htk : (l.take i).length = i := by
    simp only [List.length_take]
    omega
  have hdecomp : l = l.take i ++ a :: b :: l.drop (i + 2) := by
    conv_lhs => rw [← List.take_append_drop i l]
    congr 1
    rw [List.drop_eq_getElem_cons hi, List.drop_eq_getElem_cons h]
    rw [show i + 1 + 1 = i + 2 from rfl]
    rw [← List.get_eq_getElem l ⟨i, hi⟩, ← List.get_eq_getElem l ⟨i + 1, h⟩,
      hga, hgb]
  have hlen2 : i + 1 < (l.take i ++ b :: l.drop (i + 1)).length := by
    simp only [List.length_append, List.length_take, List.length_cons,
      List.length_drop]
    omega
  have hswap : (l.set i b).set (i + 1) a =
      l.take i ++ b :: a :: l.drop (i + 2) := by
    rw [List.set_eq_take_cons_drop b hi]
    rw [List.set_eq_take_cons_drop a hlen2]
    have e1 : List.take (i + 1) (l.take i ++ b :: l.drop (i + 1)) =
        l.take i ++ [b] := by
      rw [show i + 1 = (l.take i).length + 1 by rw [htk]]
      rw [List.take_append 1]
      rfl
    have e2 : List.drop (i + 1 + 1) (l.take i ++ b :: l.drop (i + 1)) =
        l.drop (i + 2) := by
      rw [show i + 1 + 1 = (l.take i).length + 2 by rw [htk]]
      rw [List.drop_append 2]
      show List.drop 1 (l.drop (i + 1)) = _
      rw [List.drop_drop, htk]
    rw [e1, e2]
    simp
  have hL : rzPot l =
      rzPotAux 0 (l.take i) +
        (i + 1 + rzPotAux (i + 2) (l.drop (i + 2))) := by
    unfold rzPot
    conv_lhs => rw [hdecomp]
    rw [rzPotAux_append, htk, Nat.zero_add]
    have h1 : rzPotAux i (a :: b :: l.drop (i + 2)) =
        (if (a.op == "RZ") = true then i else 0) +
          ((if (b.op == "RZ") = true then i + 1 else 0) +
            rzPotAux (i + 2) (l.drop (i + 2))) := rfl
    rw [h1]
    simp only [haRZ, hbRZ, beq_iff_eq, if_true, if_false]
    omega
  have hS : rzPot ((l.set i b).set (i + 1) a) =
      rzPotAux 0 (l.take i) +
        (i + rzPotAux (i + 2) (l.drop (i + 2))) := by
    unfold rzPot
    rw [hswap, rzPotAux_append, htk, Nat.zero_add]
    have h1 : rzPotAux i (b :: a :: l.drop (i + 2)) =
        (if (b.op == "RZ") = true then i else 0) +
          ((if (a.op == "RZ") = true then i + 1 else 0) +
            rzPotAux (i + 2) (l.drop (i + 2))) := rfl
    rw [h1]
    simp only [haRZ, hbRZ, beq_iff_eq, if_true, if_false]
    omega
  rw [hL, hS]
  omega

/-- Placeholder used for the (never-taken) out-of-range reads of
`gates[i]`; the loop guard `i + 1 < len(gates)` keeps both reads in
range. -/
def defaultGate : Gate := ⟨"", none, none, none⟩

/-- The while loop of `_commute_rotations` (lines 135-155): at position
`i`, a commuting (CX/CZ, RZ) pair is swapped and the scan backs up two
positions (`i = max(i - 2, 0)`, natural subtraction); otherwise the scan
advances.  The loop terminates: a swap strictly decreases `rzPot` and an
advance decreases `gates.length - i`. -/
def commuteAux (gates : List Gate) (i : Nat) : List Gate :=
  if h : i + 1 < gates.length then
    let g1 := gates.getD i defaultGate
    let g2 := gates.getD (i + 1) defaultGate
    if hc : canCommute g1 g2 = true then
      commuteAux ((gates.set i g2).set (i + 1) g1) (i - 2)
    else commuteAux gates (i + 1)
  else gates
termination_by (rzPot gates, gates.length - i)
decreasing_by
  · apply Prod.Lex.left
    have hi : i < gates.length := by omega
    have hg1 : gates.getD i defaultGate = gates.get ⟨i, hi⟩ := by
      rw [List.getD_eq_getElem?_getD, List.getElem?_eq_getElem hi]
      rfl
    have hg2 : gates.getD (i + 1) defaultGate = gates.get ⟨i + 1, h⟩ := by
      rw [List.getD_eq_getElem?_getD, List.getElem?_eq_getElem h]
      rfl
    unfold canCommute at hc
    simp only [Bool.and_eq_true] at hc
    obtain ⟨⟨hA, hB⟩, _⟩ := hc
    have hbRZ : (gates.get ⟨i + 1, h⟩).op = "RZ" := by
      rw [← hg2]
      exact beq_iff_eq.mp hB
    have haRZ : ¬ (gates.get ⟨i, hi⟩).op = "RZ" := by
      rw [← hg1]
      rcases Bool.or_eq_true_iff.mp hA with h2 | h2
      · rw [beq_iff_eq.mp h2]
        simp
      · rw [beq_iff_eq.mp h2]
        simp
    have := rzPot_swap_lt gates i h hi
      (gates.get ⟨i, hi⟩) (gates.get ⟨i + 1, h⟩) rfl rfl haRZ hbRZ
    rw [hg1, hg2]
    exact this
  · apply Prod.Lex.right
    omega

/-- `_commute_rotations`: the swap loop from `i = 0`, then the final
`return _fuse_rotations(gates)` (line 157). -/
noncomputable def commute_rotations (gates : List Gate) : List Gate :=
  fuse_rotations (commuteAux gates 0)

/-! ### `optimize` (optimizer.py lines 37-83) and the IR -/

/-- The circuit IR as the optimizer uses it: declared qubit count, gate
list, and the depth Optional (None before optimization). -/
structure CircuitIR where
  qubits : Nat
  gates : List Gate
  depth : Option Nat

/-- `optimize`: the four rewrite passes in order, then the qubit-count
update policy of lines 60-79 (keep the remap count when positive; keep
the original count for an emptied gate list when it was positive; keep
the original count when only global barriers remain and it was positive;
else the remap count), then the depth recomputation of line 82. -/
noncomputable def optimize (ir : CircuitIR) : CircuitIR :=
  let gates1 := cancel_inverses ir.gates
  let gates2 := fuse_rotations gates1
  let gates3 := commute_rotations gates2
  let r := qubit_remap gates3
  let newCount := r.2
  let gates4 := r.1
  let qubits' :=
    if 0 < newCount then newCount
    else if gates4.isEmpty then (if 0 < ir.qubits then ir.qubits else 0)
    else if gates4.all (fun g => g.op == "BARRIER" && g.target == none) &&
        decide (0 < ir.qubits) then ir.qubits
    else newCount
  { qubits := qubits', gates := gates4,
    depth := some (count_depth gates4 qubits') }

/-- The gate list entering the remap pass inside `optimize`. -/
noncomputable def prePassGates (ir : CircuitIR) : List Gate :=
  commute_rotations (fuse_rotations (cancel_inverses ir.gates))

/-- The qubit-count update policy of `optimize` (lines 60-79). -/
noncomputable def optQubits (ir : CircuitIR) : Nat :=
  if 0 < (qubit_remap (prePassGates ir)).2 then
    (qubit_remap (prePassGates ir)).2
  else if (qubit_remap (prePassGates ir)).1.isEmpty then
    (if 0 < ir.qubits then ir.qubits else 0)
  else if (qubit_remap (prePassGates ir)).1.all
      (fun g => g.op == "BARRIER" && g.target == none) &&
      decide (0 < ir.qubits) then ir.qubits
  else (qubit_remap (prePassGates ir)).2

theorem optimize_val (ir : CircuitIR) :
    optimize ir =
      { qubits := optQubits ir,
        gates := (qubit_remap (prePassGates ir)).1,
        depth := some (count_depth (qubit_remap (prePassGates ir)).1
          (optQubits ir)) } := rfl

theorem qubitRemapAux_length (gates : List Gate) :
    ∀ m next, (qubitRemapAux gates m next).1.length = gates.length := by
  induction gates with
  | nil => intro m next; rfl
  | cons g rest ih =>
    intro m next
    simp only [qubitRemapAux, List.length_cons]
    rw [ih]

theorem mem_foldl_firstUses (x : Nat) (ws : List Nat) :
    ∀ acc : List Nat,
      (x ∈ ws.foldl (fun acc w => if w ∈ acc then acc else acc ++ [w]) acc) ↔
        x ∈ acc ∨ x ∈ ws := by
  induction ws with
  | nil => intro acc; simp
  | cons w rest ih =>
    intro acc
    rw [List.foldl_cons, ih]
    by_cases hw : w ∈ acc
    · rw [if_pos hw]
      constructor
      · rintro (hx | hx)
        · exact Or.inl hx
        · exact Or.inr (List.mem_cons_of_mem w hx)
      · rintro (hx | hx)
        · exact Or.inl hx
        · rcases List.mem_cons.mp hx with rfl | hx
          · exact Or.inl hw
          · exact Or.inr hx
    · rw [if_neg hw]
      constructor
      · rintro (hx | hx)
        · rcases List.mem_append.mp hx with hx | hx
          · exact Or.inl hx
          · simp only [List.mem_singleton] at hx
            exact Or.inr (hx ▸ List.mem_cons_self w rest)
        · exact Or.inr (List.mem_cons_of_mem w hx)
      · rintro (hx | hx)
        · exact Or.inl (List.mem_append_left _ hx)
        · rcases List.mem_cons.mp hx with rfl | hx
          · exact Or.inl (List.mem_append_right _ (List.mem_singleton_self x))
          · exact Or.inr hx

theorem mem_firstUses (x : Nat) (ws : List Nat) :
    x ∈ firstUses ws ↔ x ∈ ws := by
  unfold firstUses
  rw [mem_foldl_firstUses]
  simp

theorem qubit_remap_mapping (gates : List Gate) :
    (qubitRemapAux gates (fun _ => none) 0).2.1 =
      (fun w => idxIn w (firstUses (refsOf gates))) ∧
    (qubit_remap gates).2 = (firstUses (refsOf gates)).length := by
  have h0 : (fun w => idxIn w ([] : List Nat)) = (fun _ : Nat => none) := rfl
  have h := allocFold_firstUses (refsOf gates) []
  rw [h0] at h
  simp only [List.length_nil] at h
  have hstate := qubitRemapAux_state gates (fun _ => none) 0
  constructor
  · have h1 : (qubitRemapAux gates (fun _ => none) 0).2.1 =
        (allocFold (refsOf gates) (fun _ => none) 0).1 := by rw [hstate]
    rw [h1, h]
    rfl
  · unfold qubit_remap
    have h2 : (qubitRemapAux gates (fun _ => none) 0).2.2 =
        (allocFold (refsOf gates) (fun _ => none) 0).2 := by rw [hstate]
    rw [h2, h]
    rfl

/-- C7 (amended): wire remapping maps the referenced wires bijectively
onto `[0, N)` in first-use order — the mapping of wire `w` is exactly
`w`'s position in the first-use-ordered list of referenced wires — and
`optimize` sets the qubit count to `N` when `N > 0` and to the original
count for an all-global-barrier remainder with positive original count;
for a wholly empty optimized gate list the qubit count is the original
count when that is positive (0 only when the original count was 0), not
unconditionally 0. -/
theorem qubit_remap_bijection :
    (∀ gates : List Gate,
      (qubitRemapAux gates (fun _ => none) 0).2.1 =
        (fun w => idxIn w (firstUses (refsOf gates))) ∧
      (qubit_remap gates).2 = (firstUses (refsOf gates)).length) ∧
    (∀ (gates : List Gate) (w : Nat),
      (idxIn w (firstUses (refsOf gates))).isSome = true ↔
        w ∈ refsOf gates) ∧
    (∀ (gates : List Gate) (w w' n : Nat),
      idxIn w (firstUses (refsOf gates)) = some n →
      idxIn w' (firstUses (refsOf gates)) = some n → w = w') ∧
    (∀ (gates : List Gate) (w n : Nat),
      idxIn w (firstUses (refsOf gates)) = some n →
      n < (qubit_remap gates).2) ∧
    (∀ (gates : List Gate) (n : Nat), n < (qubit_remap gates).2 →
      ∃ w ∈ refsOf gates, idxIn w (firstUses (refsOf gates)) = some n) ∧
    (∀ ir : CircuitIR, 0 < (qubit_remap (prePassGates ir)).2 →
      (optimize ir).qubits = (qubit_remap (prePassGates ir)).2) ∧
    (∀ ir : CircuitIR, (qubit_remap (prePassGates ir)).2 = 0 →
      (qubit_remap (prePassGates ir)).1 ≠ [] →
      (∀ g ∈ (qubit_remap (prePassGates ir)).1,
        g.op = "BARRIER" ∧ g.target = none) →
      0 < ir.qubits → (optimize ir).qubits = ir.qubits) ∧
    (∀ ir : CircuitIR, (qubit_remap (prePassGates ir)).1 = [] →
      (optimize ir).qubits = (if 0 < ir.qubits then ir.qubits else 0)) := by
  refine ⟨qubit_remap_mapping, ?_, ?_, ?_, ?_, ?_, ?_, ?_⟩
  · intro gates w
    rw [idxIn_mem, mem_firstUses]
  · intro gates w w' n hw hw'
    exact idxIn_inj _ w w' n hw hw'
  · intro gates w n hw
    rw [(qubit_remap_mapping gates).2]
    exact idxIn_lt_length w _ n hw
  · intro gates n hn
    rw [(qubit_remap_mapping gates).2] at hn
    obtain ⟨w, hwmem, hw⟩ :=
      exists_idxIn_of_nodup _ (firstUses_nodup (refsOf gates)) n hn
    exact ⟨w, (mem_firstUses w _).mp hwmem, hw⟩
  · intro ir hpos
    rw [optimize_val]
    show optQubits ir = _
    unfold optQubits
    rw [if_pos hpos]
  · intro ir hzero hne hall hq
    rw [optimize_val]
    show optQubits ir = _
    unfold optQubits
    rw [hzero]
    rw [if_neg (by omega)]
    rw [if_neg (by
      simp only [List.isEmpty_iff]
      exact hne)]
    rw [if_pos (by
      simp only [Bool.and_eq_true, List.all_eq_true, decide_eq_true_eq]
      refine ⟨?_, hq⟩
      intro g hg
      obtain ⟨h1, h2⟩ := hall g hg
      simp [h1, h2])]
  · intro ir hempty
    rw [optimize_val]
    show optQubits ir = _
    unfold optQubits
    have hzero : (qubit_remap (prePassGates ir)).2 = 0 := by
      have hlen := qubitRemapAux_length (prePassGates ir) (fun _ => none) 0
      unfold qubit_remap at hempty ⊢
      have : prePassGates ir = [] := by
        have := congrArg List.length hempty
        simp only [List.length_nil] at this
        rw [hlen] at this
        exact List.length_eq_zero.mp this
      rw [this]
      rfl
    rw [hzero]
    rw [if_neg (by omega)]
    rw [if_pos (by simp [List.isEmpty_iff, hempty])]

theorem qubit_remap_bijection_witness :
    ((qubitRemapAux [Gate.mk "CX" (some 5) (some 2) none]
        (fun _ => none) 0).2.1 =
      (fun w => idxIn w
        (firstUses (refsOf [Gate.mk "CX" (some 5) (some 2) none]))) ∧
    (qubit_remap [Gate.mk "CX" (some 5) (some 2) none]).2 =
      (firstUses (refsOf [Gate.mk "CX" (some 5) (some 2) none])).length) ∧
    ((idxIn 5 (firstUses
        (refsOf [Gate.mk "CX" (some 5) (some 2) none]))).isSome = true ↔
      5 ∈ refsOf [Gate.mk "CX" (some 5) (some 2) none]) ∧
    (idxIn 5 (firstUses (refsOf [Gate.mk "CX" (some 5) (some 2) none])) =
        some 0 →
      idxIn 5 (firstUses (refsOf [Gate.mk "CX" (some 5) (some 2) none])) =
        some 0 → (5 : Nat) = 5) ∧
    (idxIn 2 (firstUses (refsOf [Gate.mk "CX" (some 5) (some 2) none])) =
        some 1 →
      1 < (qubit_remap [Gate.mk "CX" (some 5) (some 2) none]).2) ∧
    (∃ w ∈ refsOf [Gate.mk "CX" (some 5) (some 2) none],
      idxIn w (firstUses (refsOf [Gate.mk "CX" (some 5) (some 2) none])) =
        some 0) :=
  ⟨qubit_remap_bijection.1 [Gate.mk "CX" (some 5) (some 2) none],
   qubit_remap_bijection.2.1 [Gate.mk "CX" (some 5) (some 2) none] 5,
   qubit_remap_bijection.2.2.1 [Gate.mk "CX" (some 5) (some 2) none] 5 5 0,
   qubit_remap_bijection.2.2.2.1 [Gate.mk "CX" (some 5) (some 2) none] 2 1,
   qubit_remap_bijection.2.2.2.2.1 [Gate.mk "CX" (some 5) (some 2) none] 0
     (by decide)⟩

/-! ### Concrete real-angle evaluations -/

theorem two_pi_pos : 0 < TWO_PI := by
  unfold TWO_PI
  linarith [Real.pi_pos]

theorem pymod_small (a b : ℝ) (h0 : 0 ≤ a) (hab : a < b) :
    pymod a b = a := by
  have hb : 0 < b := lt_of_le_of_lt h0 hab
  unfold pymod
  have hfl : ⌊a / b⌋ = 0 := by
    rw [Int.floor_eq_zero_iff, Set.mem_Ico]
    exact ⟨div_nonneg h0 hb.le, (div_lt_one hb).mpr hab⟩
  rw [hfl]
  simp

theorem angles_close_zero_zero : angles_close 0 0 := by
  unfold angles_close
  have hpi : pymod ((0 : ℝ) - 0 + Real.pi) TWO_PI = Real.pi := by
    rw [show (0 : ℝ) - 0 + Real.pi = Real.pi by ring]
    apply pymod_small _ _ Real.pi_pos.le
    unfold TWO_PI
    linarith [Real.pi_pos]
  rw [hpi, sub_self, abs_zero]
  norm_num

theorem not_angles_close_two_zero : ¬ angles_close 2 0 := by
  unfold angles_close
  have h : pymod ((2 : ℝ) - 0 + Real.pi) TWO_PI = 2 + Real.pi := by
    rw [show (2 : ℝ) - 0 + Real.pi = 2 + Real.pi by ring]
    apply pymod_small
    · linarith [Real.pi_pos]
    · unfold TWO_PI
      linarith [Real.pi_gt_three]
  rw [h, show (2 : ℝ) + Real.pi - Real.pi = 2 by ring,
    abs_of_nonneg (by norm_num : (0 : ℝ) ≤ 2)]
  norm_num

theorem fusedTheta_rz_rz : fusedTheta rzGate rzGate = 2 := by
  unfold fusedTheta rzGate
  simp only [Option.getD_some]
  rw [show dget [("theta", (1 : ℝ))] "theta" 0 = 1 by simp [dget]]
  rw [show (1 : ℝ) + 1 = 2 by norm_num]
  exact pymod_small 2 TWO_PI (by norm_num)
    (by unfold TWO_PI; linarith [Real.pi_gt_three])

/-! ### C7 counterexample: a wholly empty circuit keeps its original
qubit count (the spec says it becomes 0) -/

theorem commuteAux_nil : commuteAux ([] : List Gate) 0 = [] := by
  rw [commuteAux.eq_def]
  simp

/-- C7 counterexample: optimizing a wholly empty circuit declared on 2
qubits leaves the qubit count at 2, while the claim requires 0. -/
theorem optimize_empty_keeps_qubits :
    (optimize ⟨2, [], none⟩).qubits = 2 ∧ (2 : Nat) ≠ 0 := by
  have hpre : prePassGates ⟨2, [], none⟩ = [] := by
    unfold prePassGates commute_rotations
    show fuse_rotations
      (commuteAux (fuse_rotations (cancel_inverses [])) 0) = []
    rw [show fuse_rotations (cancel_inverses []) = [] from rfl, commuteAux_nil]
    rfl
  constructor
  · rw [optimize_val]
    show optQubits _ = 2
    unfold optQubits
    rw [hpre]
    norm_num [qubit_remap, qubitRemapAux]
  · norm_num

/-! ### C10: gate-object mutation, modelled with an explicit heap

`_fuse_rotations` executes `prev_gate.params["theta"] = new_theta`
(line 120) on the gate object sitting in the output buffer, which is the
same object as in the input list.  To express aliasing, the pass is
re-run over a heap of gate objects: the buffer holds heap indices, and
the in-place write becomes a heap update at the index of the buffer's
last element.  The other branches never write the heap. -/

open Classical in
/-- One iteration of the `_fuse_rotations` loop over (heap, index
buffer). -/
noncomputable def fuseHeapStep (st : List Gate × List Nat) (i : Nat) :
    List Gate × List Nat :=
  match st.2.getLast? with
  | none => (st.1, st.2 ++ [i])
  | some j =>
    let prev := st.1.getD j defaultGate
    let g := st.1.getD i defaultGate
    if fuseCond prev g then
      if angles_close (fusedTheta prev g) 0 then (st.1, st.2.dropLast)
      else (st.1.set j (setTheta prev (fusedTheta prev g)), st.2)
    else (st.1, st.2 ++ [i])

/-- `_fuse_rotations` over the heap of the input list's gate objects. -/
noncomputable def fuseHeap (heap : List Gate) : List Gate × List Nat :=
  (List.range heap.length).foldl fuseHeapStep (heap, [])

/-- How a gate object may change under the optimizer: op, target and
control are untouched, and the params dict is either untouched or has
its "theta" entry set to some value. -/
def ParamsTouched (g g' : Gate) : Prop :=
  g'.op = g.op ∧ g'.target = g.target ∧ g'.control = g.control ∧
    (g'.params = g.params ∨
      ∃ v : ℝ, g'.params = g.params.map (fun d => dset d "theta" v))

theorem dset_dset (d : List (String × ℝ)) (k : String) (v v' : ℝ) :
    dset (dset d k v) k v' = dset d k v' := by
  induction d with
  | nil => simp [dset]
  | cons p rest ih =>
    obtain ⟨k', w⟩ := p
    by_cases hk : k' = k
    · simp [dset, hk]
    · simp [dset, hk, ih]

theorem paramsTouched_refl (g : Gate) : ParamsTouched g g :=
  ⟨rfl, rfl, rfl, Or.inl rfl⟩

theorem paramsTouched_setTheta (a b : Gate) (v : ℝ)
    (h : ParamsTouched a b) : ParamsTouched a (setTheta b v) := by
  obtain ⟨h1, h2, h3, h4⟩ := h
  refine ⟨h1, h2, h3, ?_⟩
  right
  rcases h4 with h4 | ⟨w, h4⟩
  · exact ⟨v, by rw [show (setTheta b v).params =
      b.params.map (fun d => dset d "theta" v) from rfl, h4]⟩
  · refine ⟨v, ?_⟩
    rw [show (setTheta b v).params =
      b.params.map (fun d => dset d "theta" v) from rfl, h4]
    cases hp : a.params with
    | none => simp
    | some d => simp [dset_dset]

theorem forall2_set_setTheta (a b : List Gate)
    (h : List.Forall₂ ParamsTouched a b) (j : Nat) (v : ℝ) :
    List.Forall₂ ParamsTouched a
      (b.set j (setTheta (b.getD j defaultGate) v)) := by
  induction h generalizing j with
  | nil => exact List.Forall₂.nil
  | @cons x y l l' hxy htail ih =>
    cases j with
    | zero =>
      show List.Forall₂ ParamsTouched (x :: l) (setTheta y v :: l')
      exact List.Forall₂.cons (paramsTouched_setTheta x y v hxy) htail
    | succ k =>
      show List.Forall₂ ParamsTouched (x :: l)
        (y :: l'.set k (setTheta (l'.getD k defaultGate) v))
      exact List.Forall₂.cons hxy (ih k)

theorem fuseHeapStep_preserves (heap0 : List Gate)
    (st : List Gate × List Nat) (i : Nat)
    (h : List.Forall₂ ParamsTouched heap0 st.1) :
    List.Forall₂ ParamsTouched heap0 (fuseHeapStep st i).1 := by
  unfold fuseHeapStep
  cases st.2.getLast? with
  | none => exact h
  | some j =>
    show List.Forall₂ ParamsTouched heap0
      (if fuseCond (st.1.getD j defaultGate) (st.1.getD i defaultGate) then
        (if angles_close (fusedTheta (st.1.getD j defaultGate)
            (st.1.getD i defaultGate)) 0
         then (st.1, st.2.dropLast)
         else (st.1.set j (setTheta (st.1.getD j defaultGate)
           (fusedTheta (st.1.getD j defaultGate)
             (st.1.getD i defaultGate))), st.2))
       else (st.1, st.2 ++ [i])).1
    by_cases hcond : fuseCond (st.1.getD j defaultGate)
        (st.1.getD i defaultGate) = true
    · rw [if_pos hcond]
      by_cases hclose : angles_close (fusedTheta (st.1.getD j defaultGate)
          (st.1.getD i defaultGate)) 0
      · rw [if_pos hclose]
        exact h
      · rw [if_neg hclose]
        exact forall2_set_setTheta heap0 st.1 h j _
    · rw [if_neg hcond]
      exact h

theorem foldl_fuseHeapStep_preserves (heap0 : List Gate) (idxs : List Nat) :
    ∀ st : List Gate × List Nat, List.Forall₂ ParamsTouched heap0 st.1 →
      List.Forall₂ ParamsTouched heap0 (idxs.foldl fuseHeapStep st).1 := by
  induction idxs with
  | nil => intro st h; exact h
  | cons i rest ih =>
    intro st h
    exact ih (fuseHeapStep st i) (fuseHeapStep_preserves heap0 st i h)

theorem qubitRemapAux_preserves (gates : List Gate) :
    ∀ m next, List.Forall₂
      (fun g g' => g'.op = g.op ∧ g'.params = g.params)
      gates (qubitRemapAux gates m next).1 := by
  induction gates with
  | nil => intro m next; exact List.Forall₂.nil
  | cons g rest ih =>
    intro m next
    exact List.Forall₂.cons ⟨rfl, rfl⟩ (ih _ _)

/-- C10 (amended): the cancellation pass only re-emits input gate
objects, the remap pass builds fresh gates whose op and params are the
input gate's, and the rotation-fusion pass — run over an explicit heap
of the input's gate objects — leaves every gate's op, target and control
unchanged and either leaves its params untouched or (for the preceding
gate of a fused pair) overwrites the params "theta" entry in place;
gates are therefore not immutable: fusion's theta write is the one
mutation. -/
theorem optimizer_mutation :
    (∀ (l : List Gate) (g : Gate), g ∈ cancel_inverses l → g ∈ l) ∧
    (∀ gates : List Gate, ∀ m next, List.Forall₂
      (fun g g' => g'.op = g.op ∧ g'.params = g.params)
      gates (qubitRemapAux gates m next).1) ∧
    (∀ heap : List Gate,
      List.Forall₂ ParamsTouched heap (fuseHeap heap).1) := by
  refine ⟨?_, qubitRemapAux_preserves, ?_⟩
  · intro l
    have key : ∀ (xs : List Gate) (out : List Gate),
        ∀ g ∈ xs.foldl cancelStep out, g ∈ out ∨ g ∈ xs := by
      intro xs
      induction xs with
      | nil => intro out g hg; exact Or.inl hg
      | cons x rest ih =>
        intro out g hg
        rcases ih (cancelStep out x) g hg with hmem | hmem
        · unfold cancelStep at hmem
          rcases hstep : out.getLast? with _ | last
          · rw [hstep] at hmem
            have hmem' : g ∈ out ++ [x] := hmem
            rcases List.mem_append.mp hmem' with hm | hm
            · exact Or.inl hm
            · simp only [List.mem_singleton] at hm
              exact Or.inr (hm ▸ List.mem_cons_self x rest)
          · rw [hstep] at hmem
            have hmem' : g ∈ (if cancels last x then out.dropLast
                else out ++ [x]) := hmem
            by_cases hc : cancels last x
            · rw [if_pos hc] at hmem'
              exact Or.inl (List.dropLast_sublist out |>.mem hmem')
            · rw [if_neg hc] at hmem'
              rcases List.mem_append.mp hmem' with hm | hm
              · exact Or.inl hm
              · simp only [List.mem_singleton] at hm
                exact Or.inr (hm ▸ List.mem_cons_self x rest)
        · exact Or.inr (List.mem_cons_of_mem x hmem)
    intro g hg
    rcases key l [] g hg with hmem | hmem
    · simp at hmem
    · exact hmem
  · intro heap
    exact foldl_fuseHeapStep_preserves heap (List.range heap.length)
      (heap, []) ((List.forall₂_same).mpr (fun g _ => paramsTouched_refl g))

theorem optimizer_mutation_witness :
    gateX0 ∈ [gateX0] ∧
    List.Forall₂ (fun g g' => g'.op = g.op ∧ g'.params = g.params)
      [gateX0] (qubitRemapAux [gateX0] (fun _ => none) 0).1 ∧
    List.Forall₂ ParamsTouched [rzGate] (fuseHeap [rzGate]).1 :=
  ⟨optimizer_mutation.1 [gateX0] gateX0
    ((show cancel_inverses [gateX0] = [gateX0] from rfl) ▸
      List.mem_singleton_self gateX0),
   optimizer_mutation.2.1 [gateX0] (fun _ => none) 0,
   optimizer_mutation.2.2 [rzGate]⟩

/-- C10 counterexample: fusing two RZ(1) gates on wire 0 overwrites the
first gate object's params dict in place — after the pass the heap's
first gate carries theta = 2, so the input gate object was mutated. -/
theorem fuse_mutates_input :
    (fuseHeap [rzGate, rzGate]).1 =
      [Gate.mk "RZ" (some 0) none (some [("theta", 2)]), rzGate] ∧
    (fuseHeap [rzGate, rzGate]).1 ≠ [rzGate, rzGate] := by
  have e2 : fuseHeapStep ([rzGate, rzGate], [0]) 1 =
      ([rzGate, rzGate].set 0 (setTheta rzGate 2), [0]) := by
    unfold fuseHeapStep
    show (if fuseCond rzGate rzGate then
        (if angles_close (fusedTheta rzGate rzGate) 0
         then ([rzGate, rzGate], ([0] : List Nat).dropLast)
         else ([rzGate, rzGate].set 0
           (setTheta rzGate (fusedTheta rzGate rzGate)), [0]))
      else ([rzGate, rzGate], [0] ++ [1])) = _
    rw [if_pos (by decide : fuseCond rzGate rzGate = true)]
    rw [fusedTheta_rz_rz]
    rw [if_neg not_angles_close_two_zero]
  have hval : (fuseHeap [rzGate, rzGate]).1 =
      [Gate.mk "RZ" (some 0) none (some [("theta", 2)]), rzGate] := by
    unfold fuseHeap
    rw [show List.range ([rzGate, rzGate] : List Gate).length = [0, 1]
      from rfl]
    rw [List.foldl_cons, List.foldl_cons, List.foldl_nil]
    rw [show fuseHeapStep ([rzGate, rzGate], []) 0 = ([rzGate, rzGate], [0])
      from rfl]
    rw [e2]
    show ([setTheta rzGate 2, rzGate] : List Gate) =
      [Gate.mk "RZ" (some 0) none (some [("theta", 2)]), rzGate]
    unfold setTheta rzGate
    simp [dset]
  refine ⟨hval, ?_⟩
  rw [hval]
  intro h
  have h1 := List.head_eq_of_cons_eq h
  rw [show rzGate = Gate.mk "RZ" (some 0) none (some [("theta", 1)])
    from rfl] at h1
  simp only [Gate.mk.injEq, Option.some.injEq, List.cons.injEq,
    Prod.mk.injEq] at h1
  have : (2 : ℝ) = 1 := h1.2.2.2.1.2
  norm_num at this

/-! ### C6: the commutation pass is not idempotent

On `[CX(c0,t1), RX(q2,1), RX(q2,-1), RZ(q0,1)]` the swap loop finds no
commutable pair, but the final fusion cancels the RX pair and leaves
`[CX, RZ(q0)]` — with the RZ now adjacent to the CX whose control it
sits on.  A second application of the pass swaps them. -/

/-- CX with control 0 and target 1. -/
noncomputable def cxGate : Gate := ⟨"CX", some 1, some 0, none⟩

/-- RX(θ=1) on wire 2. -/
noncomputable def rxA : Gate := ⟨"RX", some 2, none, some [("theta", 1)]⟩

/-- RX(θ=-1) on wire 2. -/
noncomputable def rxB : Gate := ⟨"RX", some 2, none, some [("theta", -1)]⟩

theorem fusedTheta_rxA_rxB : fusedTheta rxA rxB = 0 := by
  unfold fusedTheta rxA rxB
  simp only [Option.getD_some]
  rw [show dget [("theta", (1 : ℝ))] "theta" 0 = 1 by simp [dget]]
  rw [show dget [("theta", (-1 : ℝ))] "theta" 0 = -1 by simp [dget]]
  rw [show (1 : ℝ) + -1 = 0 by norm_num]
  exact pymod_small 0 TWO_PI le_rfl two_pi_pos

theorem commuteAux_L0 :
    commuteAux [cxGate, rxA, rxB, rzGate] 0 = [cxGate, rxA, rxB, rzGate] := by
  have s0 : commuteAux [cxGate, rxA, rxB, rzGate] 0 =
      commuteAux [cxGate, rxA, rxB, rzGate] 1 := by
    rw [commuteAux.eq_def]
    rw [dif_pos (by decide :
      (0 : Nat) + 1 < ([cxGate, rxA, rxB, rzGate] : List Gate).length)]
    show (if hc : canCommute cxGate rxA = true then
        commuteAux (([cxGate, rxA, rxB, rzGate].set 0 rxA).set (0 + 1)
          cxGate) (0 - 2)
      else commuteAux [cxGate, rxA, rxB, rzGate] (0 + 1)) = _
    rw [dif_neg (by decide : ¬ canCommute cxGate rxA = true)]
  have s1 : commuteAux [cxGate, rxA, rxB, rzGate] 1 =
      commuteAux [cxGate, rxA, rxB, rzGate] 2 := by
    rw [commuteAux.eq_def]
    rw [dif_pos (by decide :
      (1 : Nat) + 1 < ([cxGate, rxA, rxB, rzGate] : List Gate).length)]
    show (if hc : canCommute rxA rxB = true then
        commuteAux (([cxGate, rxA, rxB, rzGate].set 1 rxB).set (1 + 1)
          rxA) (1 - 2)
      else commuteAux [cxGate, rxA, rxB, rzGate] (1 + 1)) = _
    rw [dif_neg (by decide : ¬ canCommute rxA rxB = true)]
  have s2 : commuteAux [cxGate, rxA, rxB, rzGate] 2 =
      commuteAux [cxGate, rxA, rxB, rzGate] 3 := by
    rw [commuteAux.eq_def]
    rw [dif_pos (by decide :
      (2 : Nat) + 1 < ([cxGate, rxA, rxB, rzGate] : List Gate).length)]
    show (if hc : canCommute rxB rzGate = true then
        commuteAux (([cxGate, rxA, rxB, rzGate].set 2 rzGate).set (2 + 1)
          rxB) (2 - 2)
      else commuteAux [cxGate, rxA, rxB, rzGate] (2 + 1)) = _
    rw [dif_neg (by decide : ¬ canCommute rxB rzGate = true)]
  have s3 : commuteAux [cxGate, rxA, rxB, rzGate] 3 =
      [cxGate, rxA, rxB, rzGate] := by
    rw [commuteAux.eq_def]
    rw [dif_neg (by decide :
      ¬ ((3 : Nat) + 1 < ([cxGate, rxA, rxB, rzGate] : List Gate).length))]
  rw [s0, s1, s2, s3]

theorem fuseStep_rxA_rxB : fuseStep [cxGate, rxA] rxB = [cxGate] := by
  unfold fuseStep
  show (if fuseCond rxA rxB then
      (if angles_close (fusedTheta rxA rxB) 0
       then ([cxGate, rxA] : List Gate).dropLast
       else ([cxGate, rxA] : List Gate).dropLast ++
         [setTheta rxA (fusedTheta rxA rxB)])
    else [cxGate, rxA] ++ [rxB]) = _
  rw [if_pos (by decide : fuseCond rxA rxB = true)]
  rw [fusedTheta_rxA_rxB]
  rw [if_pos angles_close_zero_zero]
  rfl

theorem fuse_L0 :
    fuse_rotations [cxGate, rxA, rxB, rzGate] = [cxGate, rzGate] := by
  unfold fuse_rotations
  rw [List.foldl_cons,
    show fuseStep [] cxGate = [cxGate] from rfl]
  rw [List.foldl_cons,
    show fuseStep [cxGate] rxA = [cxGate, rxA] from rfl]
  rw [List.foldl_cons, fuseStep_rxA_rxB]
  rw [List.foldl_cons,
    show fuseStep [cxGate] rzGate = [cxGate, rzGate] from rfl]
  rw [List.foldl_nil]

theorem commuteAux_cx_rz :
    commuteAux [cxGate, rzGate] 0 = [rzGate, cxGate] := by
  have s0 : commuteAux [cxGate, rzGate] 0 =
      commuteAux [rzGate, cxGate] 0 := by
    rw [commuteAux.eq_def]
    rw [dif_pos (by decide :
      (0 : Nat) + 1 < ([cxGate, rzGate] : List Gate).length)]
    show (if hc : canCommute cxGate rzGate = true then
        commuteAux (([cxGate, rzGate].set 0 rzGate).set (0 + 1) cxGate)
          (0 - 2)
      else commuteAux [cxGate, rzGate] (0 + 1)) = _
    rw [dif_pos (by decide : canCommute cxGate rzGate = true)]
    rfl
  have s1 : commuteAux [rzGate, cxGate] 0 =
      commuteAux [rzGate, cxGate] 1 := by
    rw [commuteAux.eq_def]
    rw [dif_pos (by decide :
      (0 : Nat) + 1 < ([rzGate, cxGate] : List Gate).length)]
    show (if hc : canCommute rzGate cxGate = true then
        commuteAux (([rzGate, cxGate].set 0 cxGate).set (0 + 1) rzGate)
          (0 - 2)
      else commuteAux [rzGate, cxGate] (0 + 1)) = _
    rw [dif_neg (by decide : ¬ canCommute rzGate cxGate = true)]
  have s2 : commuteAux [rzGate, cxGate] 1 = [rzGate, cxGate] := by
    rw [commuteAux.eq_def]
    rw [dif_neg (by decide :
      ¬ ((1 : Nat) + 1 < ([rzGate, cxGate] : List Gate).length))]
  rw [s0, s1, s2]

/-- C6: the rotation-commutation pass is not idempotent.  On the gate
list `[CX(c0,t1), RX(q2,1), RX(q2,-1), RZ(q0,1)]` the first application
yields `[CX, RZ]` (the swap loop finds nothing, the final fusion cancels
the RX pair), but applying the pass to that output swaps the now-adjacent
pair and yields `[RZ, CX]` — a different gate list. -/
theorem commute_rotations_not_idempotent :
    commute_rotations [cxGate, rxA, rxB, rzGate] = [cxGate, rzGate] ∧
    commute_rotations (commute_rotations [cxGate, rxA, rxB, rzGate]) =
      [rzGate, cxGate] ∧
    ([rzGate, cxGate] : List Gate) ≠ [cxGate, rzGate] := by
  have h1 : commute_rotations [cxGate, rxA, rxB, rzGate] =
      [cxGate, rzGate] := by
    unfold commute_rotations
    rw [commuteAux_L0, fuse_L0]
  have h2 : commute_rotations [cxGate, rzGate] = [rzGate, cxGate] := by
    unfold commute_rotations
    rw [commuteAux_cx_rz]
    unfold fuse_rotations
    rw [List.foldl_cons, show fuseStep [] rzGate = [rzGate] from rfl]
    rw [List.foldl_cons,
      show fuseStep [rzGate] cxGate = [rzGate, cxGate] from rfl]
    rw [List.foldl_nil]
  refine ⟨h1, by rw [h1, h2], ?_⟩
  intro h
  have hop := congrArg (fun l => (l.headD defaultGate).op) h
  simp only [List.headD_cons] at hop
  rw [show rzGate.op = "RZ" from rfl, show cxGate.op = "CX" from rfl] at hop
  exact absurd hop (by decide)

end Haulvisor
